import Mathlib

/-!
Verification of the wordle-solver decision engine.

The definitions below are shallow embeddings of the Python sources:
  * `get_matches`, `filterCandidates`, `selectBest`, `get_guess` embed
    `guesser_submitted.py` (class `Guesser`);
  * `get_pattern`, `guess_to_colors`, `filter_words`,
    `is_fully_disambiguating` embed `attempts/vitto.py`
    (`_get_pattern`, `_guess_to_colors`, `filter_words`,
    `is_fully_disambiguating`);
  * `try_dummy_guess` embeds `guesser_general.py`.

Words and feedback patterns are lists of characters, mirroring the
Python strings.  Python `collections.Counter` tables are embedded as
functions `Char → Int` (a missing key reads as 0, and decrements may in
principle go below zero, as with `Counter`).  Python dictionaries whose
insertion order matters are embedded as association lists.  Exceptions
(`max` on an empty sequence) are embedded with `Option`.
-/

abbrev Word := List Char
abbrev Pattern := List Char

/-- A lowercase letter, the alphabet of the game's words. -/
def IsLowerCh (c : Char) : Prop := 'a' ≤ c ∧ c ≤ 'z'

instance (c : Char) : Decidable (IsLowerCh c) := by
  unfold IsLowerCh; infer_instance

/-- `counts[letter] -= 1` on a `Counter` embedded as a function. -/
def decCount (counts : Char → Int) (c : Char) : Char → Int :=
  fun d => if d = c then counts d - 1 else counts d

/-- `Counter(answer)`: the initial remaining-count table. -/
def initCounts (answer : Word) : Char → Int :=
  fun c => (answer.count c : Int)

/-- First pass of `Guesser.get_matches` (guesser_submitted.py, lines 40-45):
for each position, an exact match records the letter and decrements the
remaining count; any other position is provisionally marked `'+'`. -/
def firstPass : List (Char × Char) → (Char → Int) → List Char × (Char → Int)
  | [], counts => ([], counts)
  | (gc, ac) :: rest, counts =>
    if gc = ac then
      let r := firstPass rest (decCount counts gc)
      (gc :: r.1, r.2)
    else
      let r := firstPass rest counts
      ('+' :: r.1, r.2)

/-- Second pass of `Guesser.get_matches` (guesser_submitted.py, lines 46-49):
a pending `'+'` whose guess letter still has remaining count in the answer
becomes `'-'` and consumes one count.  The pairs are
(provisional feedback character, guess letter). -/
def secondPass (answer : Word) : List (Char × Char) → (Char → Int) → List Char
  | [], _ => []
  | (fc, gc) :: rest, counts =>
    if fc = '+' ∧ gc ∈ answer ∧ 0 < counts gc then
      '-' :: secondPass answer rest (decCount counts gc)
    else
      fc :: secondPass answer rest counts

/-- `Guesser.get_matches(guess, answer)` from guesser_submitted.py:
the two-pass feedback scorer.  The wire format marks an exact match with
the guessed letter itself, a present-elsewhere letter with `'-'` and an
absent letter with `'+'`. -/
def get_matches (guess answer : Word) : Pattern :=
  let fp := firstPass (guess.zip answer) (initCounts answer)
  secondPass answer (fp.1.zip guess) fp.2

/-- The provisional feedback character produced by the first pass at one
position. -/
def fbChar (p : Char × Char) : Char := if p.1 = p.2 then p.1 else '+'

theorem firstPass_fst (ps : List (Char × Char)) (counts : Char → Int) :
    (firstPass ps counts).1 = ps.map fbChar := by
  induction ps generalizing counts with
  | nil => rfl
  | cons q rest ih =>
    obtain ⟨gc, ac⟩ := q
    by_cases h : gc = ac <;> simp [firstPass, h, fbChar, ih]

theorem firstPass_snd (ps : List (Char × Char)) (counts : Char → Int) (c : Char) :
    (firstPass ps counts).2 c =
      counts c - (ps.countP (fun p => decide (p.1 = p.2) && decide (p.1 = c)) : Int) := by
  induction ps generalizing counts with
  | nil => simp [firstPass]
  | cons q rest ih =>
    obtain ⟨gc, ac⟩ := q
    by_cases h : gc = ac
    · by_cases hc : gc = c
      · subst h; subst hc
        simp [firstPass, ih, List.countP_cons, decCount]
        ring
      · subst h
        simp [firstPass, ih, List.countP_cons, decCount, hc, Ne.symm hc]
    · simp [firstPass, ih, List.countP_cons, h]

theorem secondPass_length (a : Word) (ps : List (Char × Char)) (counts : Char → Int) :
    (secondPass a ps counts).length = ps.length := by
  induction ps generalizing counts with
  | nil => rfl
  | cons q rest ih =>
    obtain ⟨fc, gc⟩ := q
    by_cases h : fc = '+' ∧ gc ∈ a ∧ 0 < counts gc <;>
      simp [secondPass, h, ih]

/-- Pointwise behaviour of the second pass: each output character is the
provisional character, except that a provisional `'+'` may become `'-'`. -/
theorem secondPass_rel (a : Word) :
    ∀ (ps : List (Char × Char)) (counts : Char → Int) (i : Nat) (p : Char × Char),
      ps.get? i = some p →
      (secondPass a ps counts).get? i = some p.1 ∨
        (p.1 = '+' ∧ (secondPass a ps counts).get? i = some '-') := by
  intro ps
  induction ps with
  | nil => intro counts i p h; simp at h
  | cons q rest ih =>
    intro counts i p h
    obtain ⟨fc, gc⟩ := q
    by_cases hc : fc = '+' ∧ gc ∈ a ∧ 0 < counts gc
    · cases i with
      | zero =>
        simp at h
        subst h
        right
        exact ⟨hc.1, by simp [secondPass, hc]⟩
      | succ j =>
        simp only [List.get?_cons_succ] at h
        have := ih (decCount counts gc) j p h
        simpa [secondPass, hc] using this
    · cases i with
      | zero =>
        simp at h
        subst h
        left
        simp [secondPass, hc]
      | succ j =>
        simp only [List.get?_cons_succ] at h
        have := ih counts j p h
        simpa [secondPass, hc] using this

/-- If every remaining count is already exhausted, the second pass never
rewrites a position. -/
theorem secondPass_of_counts_nonpos (a : Word) :
    ∀ (ps : List (Char × Char)) (counts : Char → Int),
      (∀ c, counts c ≤ 0) →
      secondPass a ps counts = ps.map Prod.fst := by
  intro ps
  induction ps with
  | nil => intro counts _; rfl
  | cons q rest ih =>
    intro counts h
    obtain ⟨fc, gc⟩ := q
    have hc : ¬(fc = '+' ∧ gc ∈ a ∧ 0 < counts gc) := by
      rintro ⟨-, -, hlt⟩
      exact absurd hlt (not_lt.mpr (h gc))
    simp [secondPass, hc, ih counts h]

/-- Splitting a `countP` along a second condition. -/
theorem countP_and_split (l : List (Char × Char)) (p q : Char × Char → Bool) :
    l.countP (fun x => p x && q x) + l.countP (fun x => p x && !q x) = l.countP p := by
  induction l with
  | nil => simp
  | cons x rest ih =>
    cases hp : p x <;> cases hq : q x <;>
      simp [List.countP_cons, hp, hq] <;> omega

/-- Counting a predicate on first components along a zip. -/
theorem countP_zip_fst (f : Char → Bool) :
    ∀ (g a : List Char), g.length ≤ a.length →
      (g.zip a).countP (fun q => f q.1) = g.countP f := by
  intro g
  induction g with
  | nil => intro a _; simp
  | cons gc g' ih =>
    intro a hlen
    cases a with
    | nil => simp at hlen
    | cons ac a' =>
      simp only [List.length_cons, Nat.add_le_add_iff_right] at hlen
      simp [List.zip_cons_cons, List.countP_cons, ih a' hlen]

/-- The number of exact matches of a letter is bounded by its count in the
second list. -/
theorem countP_exact_le_right (c : Char) :
    ∀ (g a : List Char),
      (g.zip a).countP (fun q => decide (q.1 = c) && decide (q.1 = q.2))
        ≤ a.count c := by
  intro g
  induction g with
  | nil => intro a; simp
  | cons gc g' ih =>
    intro a
    cases a with
    | nil => simp
    | cons ac a' =>
      have hrest := ih a'
      simp only [List.zip_cons_cons, List.countP_cons, List.count_cons]
      by_cases h1 : gc = c
      · by_cases h2 : gc = ac
        · have hac : ac = c := h2.symm.trans h1
          simp [h1, h2, hac]
          omega
        · simp [h2]
          exact le_trans hrest (Nat.le_add_right _ _)
      · simp [h1]
        exact le_trans hrest (Nat.le_add_right _ _)

/-- Duplicate-letter accounting of the second pass.  For the pairs
(provisional feedback character, guess letter), the positions of a letter
`c` that end up not marked `Absent` are the exact matches plus as many of
the pending positions as the remaining count of `c` allows. -/
theorem secondPass_count (a : Word) (c : Char) :
    ∀ (ps : List (Char × Char)) (counts : Char → Int),
      (∀ p ∈ ps, (p.1 = p.2 ∨ p.1 = '+') ∧ p.2 ≠ '+') →
      ((secondPass a ps counts).zip (ps.map Prod.snd)).countP
          (fun q => decide (q.2 = c) && decide (q.1 ≠ '+'))
        = ps.countP (fun q => decide (q.2 = c) && decide (q.1 = q.2))
          + (if c ∈ a then
              min (ps.countP (fun q => decide (q.2 = c) && decide (q.1 = '+')))
                (counts c).toNat
            else 0) := by
  intro ps
  induction ps with
  | nil =>
    intro counts _
    simp [secondPass]
  | cons q rest ih =>
    intro counts h
    obtain ⟨fc, gc⟩ := q
    obtain ⟨hfg, hgp⟩ := h _ (List.mem_cons_self _ _)
    simp only at hfg hgp
    have hrest := fun p hp => h p (List.mem_cons_of_mem _ hp)
    by_cases hcond : fc = '+' ∧ gc ∈ a ∧ 0 < counts gc
    · -- this pending position is rewritten to `'-'` and consumes one count
      have hfgc : fc ≠ gc := fun he => hgp (he ▸ hcond.1)
      simp only [secondPass, if_pos hcond, List.map_cons, List.zip_cons_cons,
        List.countP_cons, ih (decCount counts gc) hrest]
      by_cases hgc : gc = c
      · subst hgc
        have hca : gc ∈ a := hcond.2.1
        have hlt : 0 < counts gc := hcond.2.2
        have hdc : decCount counts gc gc = counts gc - 1 := by simp [decCount]
        have hd1 : (decide (gc = gc) && decide (('-' : Char) ≠ '+')) = true := by
          simp
        have hd2 : (decide (gc = gc) && decide (fc = gc)) = false := by
          simp [hfgc]
        have hd3 : (decide (gc = gc) && decide (fc = '+')) = true := by
          simp [hcond.1]
        rw [hdc, hd1, hd2, hd3]
        simp only [if_pos hca, if_true, if_false, add_zero,
          show (if (true = true) then (1:Nat) else 0) = 1 from rfl,
          show (if (false = true) then (1:Nat) else 0) = 0 from rfl]
        omega
      · have hdc : decCount counts gc c = counts c := by
          simp [decCount, Ne.symm hgc]
        have hd1 : (decide (gc = c) && decide (('-' : Char) ≠ '+')) = false := by
          simp [hgc]
        have hd2 : (decide (gc = c) && decide (fc = gc)) = false := by
          simp [hgc]
        have hd3 : (decide (gc = c) && decide (fc = '+')) = false := by
          simp [hgc]
        rw [hdc, hd1, hd2, hd3]
        simp
    · -- this position keeps its provisional character
      simp only [secondPass, if_neg hcond, List.map_cons, List.zip_cons_cons,
        List.countP_cons, ih counts hrest]
      rcases hfg with hfg | hfg
      · -- an exact match at this position
        have hfp : fc ≠ '+' := fun he => hgp (hfg.symm.trans he)
        by_cases hgc : gc = c
        · have hd1 : (decide (gc = c) && decide (fc ≠ '+')) = true := by
            simp [hgc, hfp]
          have hd2 : (decide (gc = c) && decide (fc = gc)) = true := by
            simp [hgc, hfg]
          have hd3 : (decide (gc = c) && decide (fc = '+')) = false := by
            simp [hfp]
          rw [hd1, hd2, hd3]
          simp only [if_true, if_false, add_zero,
            show (if (true = true) then (1:Nat) else 0) = 1 from rfl,
            show (if (false = true) then (1:Nat) else 0) = 0 from rfl]
          generalize (if c ∈ a then
              min (rest.countP (fun q => decide (q.2 = c) && decide (q.1 = '+')))
                (counts c).toNat
            else 0) = k
          omega
        · have hd1 : (decide (gc = c) && decide (fc ≠ '+')) = false := by
            simp [hgc]
          have hd2 : (decide (gc = c) && decide (fc = gc)) = false := by
            simp [hgc]
          have hd3 : (decide (gc = c) && decide (fc = '+')) = false := by
            simp [hgc]
          rw [hd1, hd2, hd3]
          simp
      · -- a pending position whose letter has no remaining count
        have hne : fc ≠ gc := fun he => hgp (he.symm.trans hfg)
        have hd1 : (decide (gc = c) && decide (fc ≠ '+')) = false := by
          simp [hfg]
        have hd2 : (decide (gc = c) && decide (fc = gc)) = false := by
          simp [hne]
        rw [hd1, hd2]
        by_cases hgc : gc = c
        · have hd3 : (decide (gc = c) && decide (fc = '+')) = true := by
            simp [hgc, hfg]
          rw [hd3]
          simp only [if_true, if_false, add_zero,
            show (if (true = true) then (1:Nat) else 0) = 1 from rfl,
            show (if (false = true) then (1:Nat) else 0) = 0 from rfl]
          by_cases hca : c ∈ a
          · have hga : gc ∈ a := by rw [hgc]; exact hca
            have hle : counts c ≤ 0 := by
              by_contra hx
              rw [← hgc] at hx
              exact hcond ⟨hfg, hga, not_le.mp hx⟩
            simp only [if_pos hca]
            omega
          · simp [hca]
        · have hd3 : (decide (gc = c) && decide (fc = '+')) = false := by
            simp [hgc]
          rw [hd3]
          simp

theorem count_decide_eq (c : Char) (l : List Char) :
    l.countP (fun ch => decide (ch = c)) = l.count c := by
  induction l with
  | nil => rfl
  | cons x rest ih =>
    by_cases hx : x = c <;> simp [List.countP_cons, List.count_cons, hx, ih]

theorem get?_zip_eq {α β : Type} :
    ∀ (l₁ : List α) (l₂ : List β) (i : Nat) (x : α) (y : β),
      l₁.get? i = some x → l₂.get? i = some y →
      (l₁.zip l₂).get? i = some (x, y) := by
  intro l₁
  induction l₁ with
  | nil => intro l₂ i x y h₁ _; simp at h₁
  | cons a l₁' ih =>
    intro l₂ i x y h₁ h₂
    cases l₂ with
    | nil => simp at h₂
    | cons b l₂' =>
      cases i with
      | zero =>
        simp at h₁ h₂
        simp [List.zip_cons_cons, h₁, h₂]
      | succ j =>
        simp only [List.get?_cons_succ] at h₁ h₂
        simpa [List.zip_cons_cons] using ih l₂' j x y h₁ h₂

theorem fb_zip_eq : ∀ (g a : List Char),
    ((g.zip a).map fbChar).zip g = (g.zip a).map (fun p => (fbChar p, p.1)) := by
  intro g
  induction g with
  | nil => intro a; simp
  | cons gc g' ih =>
    intro a
    cases a with
    | nil => simp
    | cons ac a' => simp [List.zip_cons_cons, ih a']

/-- `get_matches` is the second pass run over the pairs
(provisional character, guess letter) left by the first pass. -/
theorem get_matches_eq_secondPass (g a : Word) :
    get_matches g a =
      secondPass a ((g.zip a).map (fun p => (fbChar p, p.1)))
        (firstPass (g.zip a) (initCounts a)).2 := by
  simp only [get_matches]
  rw [firstPass_fst, fb_zip_eq]

theorem get_matches_length (g a : Word) (hle : g.length ≤ a.length) :
    (get_matches g a).length = g.length := by
  rw [get_matches_eq_secondPass, secondPass_length, List.length_map,
    List.length_zip]
  omega

/-- Number of positions of `guess` holding letter `c` that the feedback `fb`
marks `Exact` or `Present` (anything but `Absent`). -/
def nonAbsentCount (c : Char) (guess fb : List Char) : Nat :=
  (guess.zip fb).countP (fun p => decide (p.1 = c) && decide (p.2 ≠ '+'))

/-- Number of positions of `guess` holding letter `c` that the feedback `fb`
marks `Absent`. -/
def absentCount (c : Char) (guess fb : List Char) : Nat :=
  (guess.zip fb).countP (fun p => decide (p.1 = c) && decide (p.2 = '+'))

/-- Duplicate-letter accounting of the whole scorer: for every letter, the
number of guess positions credited `Exact` or `Present` is exactly the
smaller of the letter's multiplicities in the guess and in the answer. -/
theorem get_matches_count (g a : Word) (c : Char)
    (hlen : g.length = a.length) (hg : ∀ ch ∈ g, ch ≠ '+') :
    nonAbsentCount c g (get_matches g a) = min (g.count c) (a.count c) := by
  have hle : g.length ≤ a.length := le_of_eq hlen
  have hsnd : ((g.zip a).map (fun p => (fbChar p, p.1))).map Prod.snd = g := by
    rw [List.map_map]
    exact List.map_fst_zip g a hle
  have hhyp : ∀ p ∈ (g.zip a).map (fun p => (fbChar p, p.1)),
      (p.1 = p.2 ∨ p.1 = '+') ∧ p.2 ≠ '+' := by
    intro p hp
    obtain ⟨q, hq, rfl⟩ := List.mem_map.mp hp
    have hq1 : q.1 ∈ g := by
      obtain ⟨x, y⟩ := q
      exact (List.of_mem_zip hq).1
    refine ⟨?_, hg _ hq1⟩
    by_cases he : q.1 = q.2
    · left; simp [fbChar, he]
    · right; simp [fbChar, he]
  have hcnt := secondPass_count a c ((g.zip a).map (fun p => (fbChar p, p.1)))
      (firstPass (g.zip a) (initCounts a)).2 hhyp
  rw [hsnd] at hcnt
  have hswap : nonAbsentCount c g (get_matches g a)
      = ((get_matches g a).zip g).countP
          (fun q => decide (q.2 = c) && decide (q.1 ≠ '+')) := by
    unfold nonAbsentCount
    rw [← List.zip_swap (get_matches g a) g, List.countP_map]
    exact List.countP_congr (fun x _ => by
      obtain ⟨u, v⟩ := x
      simp [Function.comp, Prod.swap])
  have hEx : ((g.zip a).map (fun p => (fbChar p, p.1))).countP
        (fun q => decide (q.2 = c) && decide (q.1 = q.2))
      = (g.zip a).countP (fun q => decide (q.1 = c) && decide (q.1 = q.2)) := by
    rw [List.countP_map]
    refine List.countP_congr ?_
    intro q hq
    have hq1 : q.1 ≠ '+' := hg _ (by
      obtain ⟨x, y⟩ := q
      exact (List.of_mem_zip hq).1)
    by_cases he : q.1 = q.2
    · simp [Function.comp, fbChar, he]
    · simp [Function.comp, fbChar, he, Ne.symm hq1]
  have hPend : ((g.zip a).map (fun p => (fbChar p, p.1))).countP
        (fun q => decide (q.2 = c) && decide (q.1 = '+'))
      = (g.zip a).countP
          (fun q => decide (q.1 = c) && !decide (q.1 = q.2)) := by
    rw [List.countP_map]
    refine List.countP_congr ?_
    intro q hq
    have hq1 : q.1 ≠ '+' := hg _ (by
      obtain ⟨x, y⟩ := q
      exact (List.of_mem_zip hq).1)
    by_cases he : q.1 = q.2
    · have hq2 : q.2 ≠ '+' := he ▸ hq1
      simp [Function.comp, fbChar, he, hq1, hq2]
    · simp [Function.comp, fbChar, he]
  have hcnts : (firstPass (g.zip a) (initCounts a)).2 c
      = (a.count c : Int)
        - ((g.zip a).countP (fun q => decide (q.1 = c) && decide (q.1 = q.2)) : Int) := by
    rw [firstPass_snd]
    unfold initCounts
    congr 2
    exact List.countP_congr (fun x _ => by
      obtain ⟨u, v⟩ := x
      simp [Bool.and_comm])
  have hEP : (g.zip a).countP (fun q => decide (q.1 = c) && decide (q.1 = q.2))
        + (g.zip a).countP (fun q => decide (q.1 = c) && !decide (q.1 = q.2))
      = g.count c := by
    have h := countP_and_split (g.zip a)
      (fun q => decide (q.1 = c)) (fun q => decide (q.1 = q.2))
    rwa [countP_zip_fst (fun ch => decide (ch = c)) g a hle,
      count_decide_eq] at h
  have hEa : (g.zip a).countP (fun q => decide (q.1 = c) && decide (q.1 = q.2))
      ≤ a.count c := countP_exact_le_right c g a
  rw [hswap, get_matches_eq_secondPass, hcnt, hEx, hPend, hcnts]
  by_cases hmem : c ∈ a
  · rw [if_pos hmem]
    omega
  · rw [if_neg hmem]
    have hz : a.count c = 0 := List.count_eq_zero.mpr hmem
    omega

theorem get_matches_absent (g a : Word) (c : Char)
    (hlen : g.length = a.length) (hg : ∀ ch ∈ g, ch ≠ '+') :
    absentCount c g (get_matches g a)
      = g.count c - min (g.count c) (a.count c) := by
  have h := countP_and_split (g.zip (get_matches g a))
    (fun p => decide (p.1 = c)) (fun p => decide (p.2 ≠ '+'))
  simp only [] at h
  have hflen : g.length ≤ (get_matches g a).length := by
    rw [get_matches_length g a (le_of_eq hlen)]
  have h2 : (g.zip (get_matches g a)).countP (fun p => decide (p.1 = c))
      = g.count c := by
    rw [countP_zip_fst (fun ch => decide (ch = c)) g _ hflen, count_decide_eq]
  have h4 := get_matches_count g a c hlen hg
  unfold nonAbsentCount at h4
  rw [h2, h4] at h
  have h5 : absentCount c g (get_matches g a)
      = (g.zip (get_matches g a)).countP
          (fun x => decide (x.1 = c) && !decide (x.2 ≠ '+')) := by
    unfold absentCount
    exact List.countP_congr (fun x _ => by
      obtain ⟨u, v⟩ := x
      simp [decide_not])
  rw [h5]
  omega

/-- Pointwise behaviour of the scorer: a position is marked with the guessed
letter itself exactly when guess and answer agree there, and every mark is
either the guessed letter, `'-'` or `'+'`. -/
theorem get_matches_pointwise (g a : Word) (i : Nat)
    (hlen : g.length = a.length) (hi : i < g.length)
    (hg : ∀ ch ∈ g, ch ≠ '+' ∧ ch ≠ '-') :
    ((get_matches g a).getD i ' ' = g.getD i ' ' ↔ g.getD i ' ' = a.getD i ' ')
    ∧ ((get_matches g a).getD i ' ' = g.getD i ' '
        ∨ (get_matches g a).getD i ' ' = '-'
        ∨ (get_matches g a).getD i ' ' = '+') := by
  have hi' : i < a.length := hlen ▸ hi
  obtain ⟨gi, hgi⟩ : ∃ x, g.get? i = some x := ⟨_, List.get?_eq_get hi⟩
  obtain ⟨ai, hai⟩ : ∃ x, a.get? i = some x := ⟨_, List.get?_eq_get hi'⟩
  have hz : (g.zip a).get? i = some (gi, ai) := get?_zip_eq _ _ _ _ _ hgi hai
  have hps : ((g.zip a).map (fun p => (fbChar p, p.1))).get? i
      = some (fbChar (gi, ai), gi) := by
    rw [List.get?_map, hz]
    rfl
  have hrel := secondPass_rel a _ ((firstPass (g.zip a) (initCounts a)).2) i _ hps
  rw [← get_matches_eq_secondPass] at hrel
  have hglet : g.getD i ' ' = gi := by
    rw [List.getD_eq_get?, hgi]
    rfl
  have halet : a.getD i ' ' = ai := by
    rw [List.getD_eq_get?, hai]
    rfl
  obtain ⟨hgp, hgm⟩ := hg _ (List.get?_mem hgi)
  by_cases he : gi = ai
  · have hfb : fbChar (gi, ai) = gi := by
      simp [fbChar, he]
    rw [hfb] at hrel
    rcases hrel with hrel | hrel
    · have hout : (get_matches g a).getD i ' ' = gi := by
        rw [List.getD_eq_get?, hrel]
        rfl
      rw [hout, hglet, halet]
      exact ⟨⟨fun _ => he, fun _ => rfl⟩, Or.inl rfl⟩
    · exact absurd hrel.1 hgp
  · have hfb : fbChar (gi, ai) = '+' := by
      simp [fbChar, he]
    rw [hfb] at hrel
    rw [hglet, halet]
    rcases hrel with hrel | hrel
    · have hout : (get_matches g a).getD i ' ' = '+' := by
        rw [List.getD_eq_get?, hrel]
        rfl
      rw [hout]
      refine ⟨⟨fun hx => absurd hx.symm hgp, fun hx => absurd hx he⟩, ?_⟩
      right; right; rfl
    · have hout : (get_matches g a).getD i ' ' = '-' := by
        rw [List.getD_eq_get?, hrel.2]
        rfl
      rw [hout]
      refine ⟨⟨fun hx => absurd hx.symm hgm, fun hx => absurd hx he⟩, ?_⟩
      right; left; rfl

theorem IsLowerCh.ne_symbols {c : Char} (h : IsLowerCh c) :
    c ≠ '+' ∧ c ≠ '-' := by
  constructor <;> rintro rfl <;> exact absurd h (by decide)

theorem selfPairs_countP (w : List Char) (c : Char) :
    (w.zip w).countP (fun p => decide (p.1 = p.2) && decide (p.1 = c)) = w.count c := by
  induction w with
  | nil => rfl
  | cons x rest ih =>
    by_cases hx : x = c <;>
      simp [List.zip_cons_cons, List.countP_cons, List.count_cons, hx, ih]

theorem map_fbChar_self (w : List Char) : (w.zip w).map fbChar = w := by
  induction w with
  | nil => rfl
  | cons x rest ih => simp [List.zip_cons_cons, fbChar, ih]

/-- Scoring any word against itself yields the all-`Exact` pattern, which in
the wire format is the word itself. -/
theorem get_matches_self (w : Word) : get_matches w w = w := by
  unfold get_matches
  have h1 : (firstPass (w.zip w) (initCounts w)).1 = w := by
    rw [firstPass_fst, map_fbChar_self]
  have h2 : ∀ c, (firstPass (w.zip w) (initCounts w)).2 c ≤ 0 := by
    intro c
    rw [firstPass_snd, selfPairs_countP]
    simp [initCounts]
  rw [secondPass_of_counts_nonpos _ _ _ h2, h1]
  have hlen : w.length ≤ w.length := le_refl _
  exact List.map_fst_zip w w hlen

/-- C1: for 5-letter words (the guess made of lowercase letters), the
two-pass scorer `get_matches` marks with the literal guessed letter exactly
the positions where guess and answer agree; every mark is the guessed
letter, `'-'` or `'+'`; for every letter `c` the number of positions of the
guess marked `Exact` or `Present` is `min (count c guess) (count c answer)`
— in particular it never exceeds the multiplicity of `c` in the answer, and
when the answer holds `k < count c guess` copies exactly `k` positions are
credited and the remaining `count c guess - k` are marked `Absent`. -/
theorem c1_scorer_marks (g a : Word)
    (hglen : g.length = 5) (halen : a.length = 5)
    (hg : ∀ ch ∈ g, IsLowerCh ch) :
    (get_matches g a).length = 5
    ∧ (∀ i, i < 5 →
        (((get_matches g a).getD i ' ' = g.getD i ' ') ↔ g.getD i ' ' = a.getD i ' '))
    ∧ (∀ i, i < 5 →
        ((get_matches g a).getD i ' ' = g.getD i ' '
          ∨ (get_matches g a).getD i ' ' = '-'
          ∨ (get_matches g a).getD i ' ' = '+'))
    ∧ (∀ c : Char,
        nonAbsentCount c g (get_matches g a) = min (g.count c) (a.count c))
    ∧ (∀ c : Char,
        absentCount c g (get_matches g a)
          = g.count c - min (g.count c) (a.count c)) := by
  have hlen : g.length = a.length := by rw [hglen, halen]
  have hg' : ∀ ch ∈ g, ch ≠ '+' ∧ ch ≠ '-' :=
    fun ch hch => (hg ch hch).ne_symbols
  refine ⟨?_, ?_, ?_, ?_, ?_⟩
  · rw [get_matches_length g a (le_of_eq hlen), hglen]
  · intro i hi
    exact (get_matches_pointwise g a i hlen (by omega) hg').1
  · intro i hi
    exact (get_matches_pointwise g a i hlen (by omega) hg').2
  · intro c
    exact get_matches_count g a c hlen (fun ch hch => (hg' ch hch).1)
  · intro c
    exact get_matches_absent g a c hlen (fun ch hch => (hg' ch hch).1)

theorem c1_scorer_marks_witness :
    (get_matches ['a','l','l','o','t'] ['l','o','b','b','y']).length = 5
    ∧ (∀ i, i < 5 →
        (((get_matches ['a','l','l','o','t'] ['l','o','b','b','y']).getD i ' '
            = (['a','l','l','o','t'] : Word).getD i ' ')
          ↔ (['a','l','l','o','t'] : Word).getD i ' '
            = (['l','o','b','b','y'] : Word).getD i ' '))
    ∧ (∀ i, i < 5 →
        ((get_matches ['a','l','l','o','t'] ['l','o','b','b','y']).getD i ' '
            = (['a','l','l','o','t'] : Word).getD i ' '
          ∨ (get_matches ['a','l','l','o','t'] ['l','o','b','b','y']).getD i ' ' = '-'
          ∨ (get_matches ['a','l','l','o','t'] ['l','o','b','b','y']).getD i ' ' = '+'))
    ∧ (∀ c : Char,
        nonAbsentCount c ['a','l','l','o','t']
            (get_matches ['a','l','l','o','t'] ['l','o','b','b','y'])
          = min ((['a','l','l','o','t'] : Word).count c)
              ((['l','o','b','b','y'] : Word).count c))
    ∧ (∀ c : Char,
        absentCount c ['a','l','l','o','t']
            (get_matches ['a','l','l','o','t'] ['l','o','b','b','y'])
          = (['a','l','l','o','t'] : Word).count c
            - min ((['a','l','l','o','t'] : Word).count c)
                ((['l','o','b','b','y'] : Word).count c)) :=
  c1_scorer_marks ['a','l','l','o','t'] ['l','o','b','b','y'] rfl rfl (by decide)

/-- C9: scoring a 5-letter lowercase word against itself yields the
all-`Exact` pattern: `get_matches w w` is the string `w` itself, of length
5, containing no `'-'` and no `'+'`. -/
theorem c9_self_score (w : Word) (hlen : w.length = 5)
    (hw : ∀ ch ∈ w, IsLowerCh ch) :
    get_matches w w = w
    ∧ (get_matches w w).length = 5
    ∧ (∀ ch ∈ get_matches w w, ch ≠ '-' ∧ ch ≠ '+') := by
  refine ⟨get_matches_self w, by rw [get_matches_self w, hlen], ?_⟩
  intro ch hch
  rw [get_matches_self w] at hch
  have h := (hw ch hch).ne_symbols
  exact ⟨h.2, h.1⟩

theorem c9_self_score_witness :
    get_matches ['l','o','b','b','y'] ['l','o','b','b','y'] = ['l','o','b','b','y']
    ∧ (get_matches ['l','o','b','b','y'] ['l','o','b','b','y']).length = 5
    ∧ (∀ ch ∈ get_matches ['l','o','b','b','y'] ['l','o','b','b','y'],
        ch ≠ '-' ∧ ch ≠ '+') :=
  c9_self_score ['l','o','b','b','y'] rfl (by decide)

/-- The candidate-filtering step of `Guesser.get_guess`
(guesser_submitted.py, lines 112-114): keep exactly the words whose
feedback against the last guess equals the observed result. -/
def filterCandidates (last_guess : Word) (result : Pattern)
    (candidates : List Word) : List Word :=
  candidates.filter (fun w => get_matches last_guess w == result)

/-- C3: the filtering step keeps exactly `{w ∈ S : score(g, w) = p}`; the
result never grows, and any member of `S` scoring `p` (in particular the
true answer) survives the filter. -/
theorem c3_filter_exact (S : List Word) (g : Word) (p : Pattern) (a : Word) :
    (∀ w, w ∈ filterCandidates g p S ↔ (w ∈ S ∧ get_matches g w = p))
    ∧ (filterCandidates g p S).length ≤ S.length
    ∧ (a ∈ S → get_matches g a = p → a ∈ filterCandidates g p S) := by
  refine ⟨?_, ?_, ?_⟩
  · intro w
    simp [filterCandidates, List.mem_filter]
  · exact List.length_filter_le _ _
  · intro h1 h2
    simp [filterCandidates, List.mem_filter, h1, h2]

theorem c3_filter_exact_witness :
    (∀ w, w ∈ filterCandidates ['a','l','l','o','t']
          (get_matches ['a','l','l','o','t'] ['l','o','b','b','y'])
          [['l','o','b','b','y'], ['a','l','l','o','t']]
        ↔ (w ∈ [['l','o','b','b','y'], ['a','l','l','o','t']]
            ∧ get_matches ['a','l','l','o','t'] w
              = get_matches ['a','l','l','o','t'] ['l','o','b','b','y']))
    ∧ (filterCandidates ['a','l','l','o','t']
          (get_matches ['a','l','l','o','t'] ['l','o','b','b','y'])
          [['l','o','b','b','y'], ['a','l','l','o','t']]).length
        ≤ ([['l','o','b','b','y'], ['a','l','l','o','t']] : List Word).length
    ∧ (['l','o','b','b','y'] ∈ [['l','o','b','b','y'], ['a','l','l','o','t']]
        → get_matches ['a','l','l','o','t'] ['l','o','b','b','y']
          = get_matches ['a','l','l','o','t'] ['l','o','b','b','y']
        → ['l','o','b','b','y'] ∈ filterCandidates ['a','l','l','o','t']
            (get_matches ['a','l','l','o','t'] ['l','o','b','b','y'])
            [['l','o','b','b','y'], ['a','l','l','o','t']]) :=
  c3_filter_exact [['l','o','b','b','y'], ['a','l','l','o','t']]
    ['a','l','l','o','t']
    (get_matches ['a','l','l','o','t'] ['l','o','b','b','y'])
    ['l','o','b','b','y']

/-- First pass of `Guesser._get_pattern` (attempts/vitto.py, lines 159-163):
a green position is marked `some letter` and consumes one count; any other
position stays `none`. -/
def vittoFirst : List (Char × Char) → (Char → Int) → List (Option Char) × (Char → Int)
  | [], t => ([], t)
  | (gc, tc) :: rest, t =>
    if gc = tc then
      let r := vittoFirst rest (decCount t gc)
      (some gc :: r.1, r.2)
    else
      let r := vittoFirst rest t
      (none :: r.1, r.2)

/-- Second pass of `Guesser._get_pattern` (attempts/vitto.py, lines 165-172):
an unmarked position whose guess letter occurs in the target with a
positive remaining count becomes `'-'`, otherwise `'+'`. -/
def vittoSecond (target : Word) : List (Option Char × Char) → (Char → Int) → List Char
  | [], _ => []
  | (oc, gc) :: rest, t =>
    match oc with
    | some ch => ch :: vittoSecond target rest t
    | none =>
      if gc ∈ target ∧ 0 < t gc then
        '-' :: vittoSecond target rest (decCount t gc)
      else
        '+' :: vittoSecond target rest t

/-- `Guesser._get_pattern(guess, target)` from attempts/vitto.py (the
leading underscore of the Python name is dropped). -/
def get_pattern (guess target : Word) : Pattern :=
  let fp := vittoFirst (guess.zip target) (initCounts target)
  vittoSecond target (fp.1.zip guess) fp.2

/-- The provisional mark of vitto's first pass at one position. -/
def vittoChar (p : Char × Char) : Option Char :=
  if p.1 = p.2 then some p.1 else none

theorem vittoFirst_fst (ps : List (Char × Char)) (t : Char → Int) :
    (vittoFirst ps t).1 = ps.map vittoChar := by
  induction ps generalizing t with
  | nil => rfl
  | cons q rest ih =>
    obtain ⟨gc, ac⟩ := q
    by_cases h : gc = ac <;> simp [vittoFirst, h, vittoChar, ih]

theorem vittoFirst_snd (ps : List (Char × Char)) (t : Char → Int) :
    (vittoFirst ps t).2 = (firstPass ps t).2 := by
  induction ps generalizing t with
  | nil => rfl
  | cons q rest ih =>
    obtain ⟨gc, ac⟩ := q
    by_cases h : gc = ac <;> simp [vittoFirst, firstPass, h, ih]

theorem ofb_zip_eq : ∀ (g a : List Char),
    ((g.zip a).map vittoChar).zip g = (g.zip a).map (fun p => (vittoChar p, p.1)) := by
  intro g
  induction g with
  | nil => intro a; simp
  | cons gc g' ih =>
    intro a
    cases a with
    | nil => simp
    | cons ac a' => simp [List.zip_cons_cons, ih a']

/-- On guesses free of the `'+'` symbol the two second passes agree
position by position. -/
theorem vittoSecond_eq_secondPass (target : Word) :
    ∀ (z : List (Char × Char)) (t : Char → Int),
      (∀ p ∈ z, p.1 ≠ '+') →
      vittoSecond target (z.map (fun p => (vittoChar p, p.1))) t
        = secondPass target (z.map (fun p => (fbChar p, p.1))) t := by
  intro z
  induction z with
  | nil => intro t _; rfl
  | cons q rest ih =>
    intro t h
    obtain ⟨gc, ac⟩ := q
    have hgc : gc ≠ '+' := h _ (List.mem_cons_self _ _)
    have hrest := fun p hp => h p (List.mem_cons_of_mem _ hp)
    simp only [List.map_cons]
    by_cases he : gc = ac
    · have hvc : vittoChar (gc, ac) = some gc := by simp [vittoChar, he]
      have hfb : fbChar (gc, ac) = gc := by simp [fbChar, he]
      have hcnd : ¬(gc = '+' ∧ gc ∈ target ∧ 0 < t gc) := fun hx => hgc hx.1
      simp only [hvc, hfb, vittoSecond, secondPass, if_neg hcnd]
      rw [ih t hrest]
    · have hvc : vittoChar (gc, ac) = none := by simp [vittoChar, he]
      have hfb : fbChar (gc, ac) = '+' := by simp [fbChar, he]
      simp only [hvc, hfb, vittoSecond, secondPass]
      by_cases hcond : gc ∈ target ∧ 0 < t gc
      · have hc2 : True ∧ gc ∈ target ∧ 0 < t gc := ⟨trivial, hcond.1, hcond.2⟩
        rw [if_pos hcond, if_pos hc2, ih (decCount t gc) hrest]
      · have hc2 : ¬(True ∧ gc ∈ target ∧ 0 < t gc) := fun hx => hcond hx.2
        rw [if_neg hcond, if_neg hc2, ih t hrest]

/-- For guesses that do not contain the reserved symbol `'+'` (in particular
all lowercase words), vitto's scorer agrees with the submitted scorer. -/
theorem get_pattern_eq_get_matches (g a : Word) (hg : ∀ ch ∈ g, ch ≠ '+') :
    get_pattern g a = get_matches g a := by
  rw [get_matches_eq_secondPass]
  simp only [get_pattern]
  rw [vittoFirst_fst, vittoFirst_snd, ofb_zip_eq]
  refine vittoSecond_eq_secondPass a (g.zip a) _ ?_
  intro p hp
  obtain ⟨x, y⟩ := p
  exact hg _ (List.of_mem_zip hp).1

/-- The loop of `Guesser.is_fully_disambiguating`
(attempts/vitto.py, lines 290-296): walk the candidate words, accumulating
the set of patterns already seen and failing on the first duplicate. -/
def disambLoop (guess : Word) : List Word → List Pattern → Bool
  | [], _ => true
  | w :: rest, patterns =>
    let pat := get_pattern guess w
    if pat ∈ patterns then false
    else disambLoop guess rest (pat :: patterns)

/-- `Guesser.is_fully_disambiguating(guess, possible_words)` from
attempts/vitto.py. -/
def is_fully_disambiguating (guess : Word) (possible_words : List Word) : Bool :=
  disambLoop guess possible_words []

theorem disambLoop_iff (guess : Word) :
    ∀ (ws : List Word) (acc : List Pattern),
      disambLoop guess ws acc = true ↔
        ((ws.map (get_pattern guess)).Nodup
          ∧ ∀ p ∈ ws.map (get_pattern guess), p ∉ acc) := by
  intro ws
  induction ws with
  | nil =>
    intro acc
    simp [disambLoop]
  | cons w rest ih =>
    intro acc
    by_cases hmem : get_pattern guess w ∈ acc
    · simp only [disambLoop, if_pos hmem]
      constructor
      · intro hfalse
        exact absurd hfalse (by simp)
      · rintro ⟨-, hall⟩
        exact absurd hmem (hall _ (by simp))
    · simp only [disambLoop, if_neg hmem, ih]
      constructor
      · rintro ⟨hnd, hall⟩
        refine ⟨?_, ?_⟩
        · rw [List.map_cons, List.nodup_cons]
          exact ⟨fun hin => (hall _ hin) (List.mem_cons_self _ _), hnd⟩
        · intro p hp
          rw [List.map_cons] at hp
          rcases List.mem_cons.mp hp with hp' | hp'
          · rw [hp']
            exact hmem
          · exact fun hin => hall _ hp' (List.mem_cons_of_mem _ hin)
      · rintro ⟨hnd, hall⟩
        rw [List.map_cons, List.nodup_cons] at hnd
        refine ⟨hnd.2, ?_⟩
        intro p hp hin
        rcases List.mem_cons.mp hin with hp' | hp'
        · rw [hp'] at hp
          exact hnd.1 hp
        · refine hall _ ?_ hp'
          rw [List.map_cons]
          exact List.mem_cons_of_mem _ hp

/-- C7: `is_fully_disambiguating(guess, possible_words)` returns `True`
exactly when the feedback patterns of `guess` against the words of
`possible_words` are pairwise distinct (no duplicate pattern); in
particular an accepted guess for a three-word reference space yields three
distinct patterns. -/
theorem c7_fully_disambiguating (guess : Word) (possible_words : List Word) :
    is_fully_disambiguating guess possible_words = true
      ↔ (possible_words.map (get_pattern guess)).Nodup := by
  unfold is_fully_disambiguating
  rw [disambLoop_iff]
  simp

/-- The constraint record built by `Guesser._guess_to_colors`
(attempts/vitto.py, lines 199-213). -/
structure ColorData where
  gray : List Char
  yellow : List (Char × List Nat)
  green_pos : List (Nat × Char)
  required_letters : List (Char × Nat)

/-- `data[letter] = data.get(letter, 0) + 1` on an insertion-ordered
dictionary. -/
def bumpA : List (Char × Nat) → Char → List (Char × Nat)
  | [], c => [(c, 1)]
  | (k, v) :: rest, c =>
    if k = c then (k, v + 1) :: rest else (k, v) :: bumpA rest c

/-- `data["yellow"][g] = data["yellow"].get(g, set()); ....add(i)` on an
insertion-ordered dictionary of position sets. -/
def addYellow : List (Char × List Nat) → Char → Nat → List (Char × List Nat)
  | [], c, i => [(c, [i])]
  | (k, ps) :: rest, c, i =>
    if k = c then (k, ps ++ [i]) :: rest else (k, ps) :: addYellow rest c i

/-- The loop of `_guess_to_colors`, with the running position index made
explicit (Python's `enumerate`). -/
def gtcAux : Nat → List (Char × Char) → ColorData → ColorData
  | _, [], d => d
  | i, (g, p) :: rest, d =>
    gtcAux (i + 1) rest
      (if p = '+' then { d with gray := d.gray ++ [g] }
       else if p = '-' then
         { d with yellow := addYellow d.yellow g i,
                  required_letters := bumpA d.required_letters g }
       else
         { d with green_pos := d.green_pos ++ [(i, g)],
                  required_letters := bumpA d.required_letters g })

/-- `Guesser._guess_to_colors(guess, pattern)` from attempts/vitto.py. -/
def guess_to_colors (guess pattern : Word) : ColorData :=
  gtcAux 0 (guess.zip pattern) ⟨[], [], [], []⟩

/-- The per-word validity check of `Guesser.filter_words`
(attempts/vitto.py, lines 219-267): required letter counts, green
positions, yellow positions, and gray letters, conjoined. -/
def isValidWord (data : ColorData) (word : Word) : Bool :=
  (data.required_letters.all (fun lc => decide (lc.2 ≤ word.count lc.1)))
  && (data.green_pos.all (fun pc => word.getD pc.1 ' ' == pc.2))
  && (data.yellow.all (fun lp =>
        lp.2.all (fun pos => !(word.getD pos ' ' == lp.1))))
  && (data.gray.all (fun letter =>
        if (data.required_letters.lookup letter).isSome then
          decide (word.count letter
            ≤ (data.required_letters.lookup letter).getD 0)
        else !(word.contains letter)))

/-- `Guesser.filter_words(guess, pattern)` from attempts/vitto.py, as a
function of the search space it narrows. -/
def filter_words (guess pattern : Word) (search_space : List Word) : List Word :=
  search_space.filter (fun w => isValidWord (guess_to_colors guess pattern) w)

theorem lookup_bumpA_self (d : List (Char × Nat)) (c : Char) :
    (bumpA d c).lookup c = some (((d.lookup c).getD 0) + 1) := by
  induction d with
  | nil => simp [bumpA, List.lookup]
  | cons kv rest ih =>
    obtain ⟨k, v⟩ := kv
    by_cases hk : k = c
    · subst hk
      simp [bumpA, List.lookup]
    · have hbeq : (c == k) = false := beq_eq_false_iff_ne.mpr (Ne.symm hk)
      simp [bumpA, List.lookup, hk, hbeq, ih]

theorem lookup_bumpA_other (d : List (Char × Nat)) (c c' : Char) (h : c' ≠ c) :
    (bumpA d c).lookup c' = d.lookup c' := by
  have hbeq : (c' == c) = false := beq_eq_false_iff_ne.mpr h
  induction d with
  | nil => simp [bumpA, List.lookup, hbeq]
  | cons kv rest ih =>
    obtain ⟨k, v⟩ := kv
    by_cases hk : k = c
    · subst hk
      simp [bumpA, List.lookup, hbeq]
    · cases hb : (c' == k) <;> simp [bumpA, List.lookup, hk, hb, ih]

theorem mem_keys_bumpA (d : List (Char × Nat)) (c x : Char) :
    x ∈ (bumpA d c).map Prod.fst ↔ x ∈ d.map Prod.fst ∨ x = c := by
  induction d with
  | nil => simp [bumpA]
  | cons kv rest ih =>
    obtain ⟨k, v⟩ := kv
    by_cases hk : k = c
    · subst hk
      rw [show bumpA ((k, v) :: rest) k = (k, v + 1) :: rest from by
        simp [bumpA]]
      simp only [List.map_cons, List.mem_cons]
      tauto
    · simp only [bumpA, if_neg hk, List.map_cons, List.mem_cons, ih]
      tauto

theorem keys_bumpA_nodup (d : List (Char × Nat)) (c : Char)
    (h : (d.map Prod.fst).Nodup) : ((bumpA d c).map Prod.fst).Nodup := by
  induction d with
  | nil => simp [bumpA]
  | cons kv rest ih =>
    obtain ⟨k, v⟩ := kv
    rw [List.map_cons, List.nodup_cons] at h
    by_cases hk : k = c
    · subst hk
      simpa [bumpA] using h
    · simp only [bumpA, if_neg hk, List.map_cons, List.nodup_cons]
      refine ⟨fun hm => ?_, ih h.2⟩
      rcases (mem_keys_bumpA rest c k).mp hm with hm' | hm'
      · exact h.1 hm'
      · exact hk hm'

theorem lookup_eq_of_mem :
    ∀ (d : List (Char × Nat)), (d.map Prod.fst).Nodup →
      ∀ (c : Char) (n : Nat), (c, n) ∈ d → d.lookup c = some n := by
  intro d
  induction d with
  | nil =>
    intro _ c n hm
    simp at hm
  | cons kv rest ih =>
    intro hnd c n hm
    obtain ⟨k, v⟩ := kv
    rw [List.map_cons, List.nodup_cons] at hnd
    rcases List.mem_cons.mp hm with hm' | hm'
    · injection hm' with h1 h2
      subst h1
      subst h2
      simp [List.lookup]
    · have hk : (c == k) = false := by
        refine beq_eq_false_iff_ne.mpr (fun he => ?_)
        subst he
        exact hnd.1 (List.mem_map.mpr ⟨(c, n), hm', rfl⟩)
      simp [List.lookup, hk, ih hnd.2 c n hm']

theorem gtcAux_gray :
    ∀ (ps : List (Char × Char)) (i : Nat) (d : ColorData),
      (gtcAux i ps d).gray
        = d.gray ++ (ps.filter (fun q => decide (q.2 = '+'))).map Prod.fst := by
  intro ps
  induction ps with
  | nil =>
    intro i d
    simp [gtcAux]
  | cons q rest ih =>
    intro i d
    obtain ⟨gc, pc⟩ := q
    by_cases hp : pc = '+'
    · subst hp
      rw [show gtcAux i ((gc, '+') :: rest) d
          = gtcAux (i + 1) rest { d with gray := d.gray ++ [gc] } from by
        simp [gtcAux]]
      rw [ih]
      simp [List.filter_cons]
    · by_cases hm : pc = '-'
      · subst hm
        rw [show gtcAux i ((gc, '-') :: rest) d
            = gtcAux (i + 1) rest
                { d with yellow := addYellow d.yellow gc i,
                         required_letters := bumpA d.required_letters gc } from by
          simp [gtcAux]]
        rw [ih]
        simp [List.filter_cons]
      · rw [show gtcAux i ((gc, pc) :: rest) d
            = gtcAux (i + 1) rest
                { d with green_pos := d.green_pos ++ [(i, gc)],
                         required_letters := bumpA d.required_letters gc } from by
          simp [gtcAux, hp, hm]]
        rw [ih]
        simp [List.filter_cons, hp]

theorem gtcAux_req :
    ∀ (ps : List (Char × Char)) (i : Nat) (d : ColorData) (c : Char),
      ((gtcAux i ps d).required_letters.lookup c).getD 0
        = (d.required_letters.lookup c).getD 0
          + ps.countP (fun q => decide (q.1 = c) && !decide (q.2 = '+')) := by
  intro ps
  induction ps with
  | nil =>
    intro i d c
    simp [gtcAux]
  | cons q rest ih =>
    intro i d c
    obtain ⟨gc, pc⟩ := q
    by_cases hp : pc = '+'
    · subst hp
      rw [show gtcAux i ((gc, '+') :: rest) d
          = gtcAux (i + 1) rest { d with gray := d.gray ++ [gc] } from by
        simp [gtcAux]]
      rw [ih]
      simp [List.countP_cons]
    · have hstep : ∃ d', gtcAux i ((gc, pc) :: rest) d = gtcAux (i + 1) rest d'
          ∧ d'.required_letters = bumpA d.required_letters gc := by
        by_cases hm : pc = '-'
        · subst hm
          have hgoal : gtcAux i ((gc, '-') :: rest) d
              = gtcAux (i + 1) rest
                  { d with yellow := addYellow d.yellow gc i,
                           required_letters := bumpA d.required_letters gc } := by
            simp [gtcAux]
          exact ⟨_, hgoal, rfl⟩
        · have hgoal : gtcAux i ((gc, pc) :: rest) d
              = gtcAux (i + 1) rest
                  { d with green_pos := d.green_pos ++ [(i, gc)],
                           required_letters := bumpA d.required_letters gc } := by
            simp [gtcAux, hp, hm]
          exact ⟨_, hgoal, rfl⟩
      obtain ⟨d', hd', hreq⟩ := hstep
      rw [hd', ih, hreq]
      by_cases hgc : gc = c
      · subst hgc
        rw [lookup_bumpA_self]
        simp [List.countP_cons, hp]
        omega
      · rw [lookup_bumpA_other _ _ _ (fun he => hgc he.symm)]
        simp [List.countP_cons, hgc]

theorem gtcAux_req_none :
    ∀ (ps : List (Char × Char)) (i : Nat) (d : ColorData) (c : Char),
      ((gtcAux i ps d).required_letters.lookup c = none)
        ↔ (d.required_letters.lookup c = none
            ∧ ps.countP (fun q => decide (q.1 = c) && !decide (q.2 = '+')) = 0) := by
  intro ps
  induction ps with
  | nil =>
    intro i d c
    simp [gtcAux]
  | cons q rest ih =>
    intro i d c
    obtain ⟨gc, pc⟩ := q
    by_cases hp : pc = '+'
    · subst hp
      rw [show gtcAux i ((gc, '+') :: rest) d
          = gtcAux (i + 1) rest { d with gray := d.gray ++ [gc] } from by
        simp [gtcAux]]
      rw [ih]
      simp [List.countP_cons]
    · have hstep : ∃ d', gtcAux i ((gc, pc) :: rest) d = gtcAux (i + 1) rest d'
          ∧ d'.required_letters = bumpA d.required_letters gc := by
        by_cases hm : pc = '-'
        · subst hm
          have hgoal : gtcAux i ((gc, '-') :: rest) d
              = gtcAux (i + 1) rest
                  { d with yellow := addYellow d.yellow gc i,
                           required_letters := bumpA d.required_letters gc } := by
            simp [gtcAux]
          exact ⟨_, hgoal, rfl⟩
        · have hgoal : gtcAux i ((gc, pc) :: rest) d
              = gtcAux (i + 1) rest
                  { d with green_pos := d.green_pos ++ [(i, gc)],
                           required_letters := bumpA d.required_letters gc } := by
            simp [gtcAux, hp, hm]
          exact ⟨_, hgoal, rfl⟩
      obtain ⟨d', hd', hreq⟩ := hstep
      rw [hd', ih, hreq]
      by_cases hgc : gc = c
      · subst hgc
        rw [lookup_bumpA_self]
        simp [List.countP_cons, hp]
      · rw [lookup_bumpA_other _ _ _ (fun he => hgc he.symm)]
        simp [List.countP_cons, hgc]

theorem gtcAux_req_nodup :
    ∀ (ps : List (Char × Char)) (i : Nat) (d : ColorData),
      (d.required_letters.map Prod.fst).Nodup →
      ((gtcAux i ps d).required_letters.map Prod.fst).Nodup := by
  intro ps
  induction ps with
  | nil =>
    intro i d h
    simpa [gtcAux] using h
  | cons q rest ih =>
    intro i d h
    obtain ⟨gc, pc⟩ := q
    by_cases hp : pc = '+'
    · subst hp
      rw [show gtcAux i ((gc, '+') :: rest) d
          = gtcAux (i + 1) rest { d with gray := d.gray ++ [gc] } from by
        simp [gtcAux]]
      exact ih (i + 1) _ h
    · have hstep : ∃ d', gtcAux i ((gc, pc) :: rest) d = gtcAux (i + 1) rest d'
          ∧ d'.required_letters = bumpA d.required_letters gc := by
        by_cases hm : pc = '-'
        · subst hm
          have hgoal : gtcAux i ((gc, '-') :: rest) d
              = gtcAux (i + 1) rest
                  { d with yellow := addYellow d.yellow gc i,
                           required_letters := bumpA d.required_letters gc } := by
            simp [gtcAux]
          exact ⟨_, hgoal, rfl⟩
        · have hgoal : gtcAux i ((gc, pc) :: rest) d
              = gtcAux (i + 1) rest
                  { d with green_pos := d.green_pos ++ [(i, gc)],
                           required_letters := bumpA d.required_letters gc } := by
            simp [gtcAux, hp, hm]
          exact ⟨_, hgoal, rfl⟩
      obtain ⟨d', hd', hreq⟩ := hstep
      rw [hd']
      refine ih (i + 1) d' ?_
      rw [hreq]
      exact keys_bumpA_nodup _ _ h

theorem get?_zip_inv {α β : Type} :
    ∀ (l₁ : List α) (l₂ : List β) (i : Nat) (x : α) (y : β),
      (l₁.zip l₂).get? i = some (x, y) →
      l₁.get? i = some x ∧ l₂.get? i = some y := by
  intro l₁
  induction l₁ with
  | nil =>
    intro l₂ i x y h
    simp at h
  | cons a l₁' ih =>
    intro l₂ i x y h
    cases l₂ with
    | nil => simp at h
    | cons b l₂' =>
      cases i with
      | zero =>
        rw [List.zip_cons_cons] at h
        simp at h
        exact ⟨by simp [h.1], by simp [h.2]⟩
      | succ j =>
        rw [List.zip_cons_cons] at h
        simp only [List.get?_cons_succ] at h ⊢
        exact ih l₂' j x y h

theorem gtcAux_green :
    ∀ (ps : List (Char × Char)) (i : Nat) (d : ColorData) (pos : Nat) (c : Char),
      (pos, c) ∈ (gtcAux i ps d).green_pos →
      (pos, c) ∈ d.green_pos
        ∨ ∃ k pc, ps.get? k = some (c, pc) ∧ pos = i + k ∧ pc ≠ '+' ∧ pc ≠ '-' := by
  intro ps
  induction ps with
  | nil =>
    intro i d pos c h
    left
    simpa [gtcAux] using h
  | cons q rest ih =>
    intro i d pos c h
    obtain ⟨gc, pc⟩ := q
    by_cases hp : pc = '+'
    · subst hp
      rw [show gtcAux i ((gc, '+') :: rest) d
          = gtcAux (i + 1) rest { d with gray := d.gray ++ [gc] } from by
        simp [gtcAux]] at h
      rcases ih (i + 1) _ pos c h with h' | ⟨k, pc', hk, hpos, h1, h2⟩
      · left; exact h'
      · right
        exact ⟨k + 1, pc', by simpa using hk, by omega, h1, h2⟩
    · by_cases hm : pc = '-'
      · subst hm
        rw [show gtcAux i ((gc, '-') :: rest) d
            = gtcAux (i + 1) rest
                { d with yellow := addYellow d.yellow gc i,
                         required_letters := bumpA d.required_letters gc } from by
          simp [gtcAux]] at h
        rcases ih (i + 1) _ pos c h with h' | ⟨k, pc', hk, hpos, h1, h2⟩
        · left; exact h'
        · right
          exact ⟨k + 1, pc', by simpa using hk, by omega, h1, h2⟩
      · rw [show gtcAux i ((gc, pc) :: rest) d
            = gtcAux (i + 1) rest
                { d with green_pos := d.green_pos ++ [(i, gc)],
                         required_letters := bumpA d.required_letters gc } from by
          simp [gtcAux, hp, hm]] at h
        rcases ih (i + 1) _ pos c h with h' | ⟨k, pc', hk, hpos, h1, h2⟩
        · rcases List.mem_append.mp h' with h'' | h''
          · left; exact h''
          · have he : (pos, c) = (i, gc) := by simpa using h''
            injection he with e1 e2
            subst e1
            subst e2
            right
            exact ⟨0, pc, by simp, by omega, hp, hm⟩
        · right
          exact ⟨k + 1, pc', by simpa using hk, by omega, h1, h2⟩

theorem mem_addYellow_pos :
    ∀ (y : List (Char × List Nat)) (c : Char) (i : Nat) (c' : Char)
      (poss : List Nat) (pos : Nat),
      (c', poss) ∈ addYellow y c i → pos ∈ poss →
      (∃ poss₀, (c', poss₀) ∈ y ∧ pos ∈ poss₀) ∨ (c' = c ∧ pos = i) := by
  intro y
  induction y with
  | nil =>
    intro c i c' poss pos hm hp
    have he : (c', poss) = (c, [i]) := by simpa [addYellow] using hm
    injection he with e1 e2
    subst e1
    subst e2
    right
    exact ⟨rfl, by simpa using hp⟩
  | cons kv rest ih =>
    intro c i c' poss pos hm hp
    obtain ⟨k, ps₀⟩ := kv
    by_cases hk : k = c
    · subst hk
      rw [show addYellow ((k, ps₀) :: rest) k i = (k, ps₀ ++ [i]) :: rest from by
        simp [addYellow]] at hm
      rcases List.mem_cons.mp hm with hm' | hm'
      · injection hm' with e1 e2
        subst e1
        subst e2
        rcases List.mem_append.mp hp with hp' | hp'
        · left
          exact ⟨ps₀, List.mem_cons_self _ _, hp'⟩
        · right
          exact ⟨rfl, by simpa using hp'⟩
      · left
        exact ⟨poss, List.mem_cons_of_mem _ hm', hp⟩
    · rw [show addYellow ((k, ps₀) :: rest) c i
          = (k, ps₀) :: addYellow rest c i from by
        simp [addYellow, hk]] at hm
      rcases List.mem_cons.mp hm with hm' | hm'
      · left
        refine ⟨poss, ?_, hp⟩
        rw [hm']
        exact List.mem_cons_self _ _
      · rcases ih c i c' poss pos hm' hp with h' | h'
        · obtain ⟨poss₀, hy, hpos⟩ := h'
          left
          exact ⟨poss₀, List.mem_cons_of_mem _ hy, hpos⟩
        · right
          exact h'

theorem gtcAux_yellow :
    ∀ (ps : List (Char × Char)) (i : Nat) (d : ColorData) (c : Char)
      (poss : List Nat) (pos : Nat),
      (c, poss) ∈ (gtcAux i ps d).yellow → pos ∈ poss →
      (∃ poss₀, (c, poss₀) ∈ d.yellow ∧ pos ∈ poss₀)
        ∨ ∃ k, ps.get? k = some (c, '-') ∧ pos = i + k := by
  intro ps
  induction ps with
  | nil =>
    intro i d c poss pos h hp
    left
    exact ⟨poss, by simpa [gtcAux] using h, hp⟩
  | cons q rest ih =>
    intro i d c poss pos h hp
    obtain ⟨gc, pc⟩ := q
    by_cases hpl : pc = '+'
    · subst hpl
      rw [show gtcAux i ((gc, '+') :: rest) d
          = gtcAux (i + 1) rest { d with gray := d.gray ++ [gc] } from by
        simp [gtcAux]] at h
      rcases ih (i + 1) _ c poss pos h hp with h' | ⟨k, hk, hpos⟩
      · left; exact h'
      · right
        exact ⟨k + 1, by simpa using hk, by omega⟩
    · by_cases hm : pc = '-'
      · subst hm
        rw [show gtcAux i ((gc, '-') :: rest) d
            = gtcAux (i + 1) rest
                { d with yellow := addYellow d.yellow gc i,
                         required_letters := bumpA d.required_letters gc } from by
          simp [gtcAux]] at h
        rcases ih (i + 1) _ c poss pos h hp with h' | ⟨k, hk, hpos⟩
        · obtain ⟨poss₀, hy, hpos₀⟩ := h'
          rcases mem_addYellow_pos d.yellow gc i c poss₀ pos hy hpos₀ with h'' | h''
          · left; exact h''
          · right
            obtain ⟨e1, e2⟩ := h''
            subst e1
            exact ⟨0, by simp, by omega⟩
        · right
          exact ⟨k + 1, by simpa using hk, by omega⟩
      · rw [show gtcAux i ((gc, pc) :: rest) d
            = gtcAux (i + 1) rest
                { d with green_pos := d.green_pos ++ [(i, gc)],
                         required_letters := bumpA d.required_letters gc } from by
          simp [gtcAux, hpl, hm]] at h
        rcases ih (i + 1) _ c poss pos h hp with h' | ⟨k, hk, hpos⟩
        · left; exact h'
        · right
          exact ⟨k + 1, by simpa using hk, by omega⟩

/-- vitto's constraint filter never removes a consistent word: every
`w ∈ S` whose pattern against the guess is exactly the observed one
passes all four constraint checks. -/
theorem filter_words_keeps_consistent (g w : Word) (S : List Word)
    (hglen : g.length = 5) (hwlen : w.length = 5)
    (hg : ∀ ch ∈ g, IsLowerCh ch) (hmem : w ∈ S) :
    w ∈ filter_words g (get_pattern g w) S := by
  have hg' : ∀ ch ∈ g, ch ≠ '+' ∧ ch ≠ '-' :=
    fun ch hch => (hg ch hch).ne_symbols
  have hgp : get_pattern g w = get_matches g w :=
    get_pattern_eq_get_matches g w (fun ch hch => (hg' ch hch).1)
  have hlen : g.length = w.length := by rw [hglen, hwlen]
  rw [hgp]
  unfold filter_words
  refine List.mem_filter.mpr ⟨hmem, ?_⟩
  -- the required-letter table reads off min(multiplicity in g, in w)
  have hreq : ∀ c : Char,
      ((guess_to_colors g (get_matches g w)).required_letters.lookup c).getD 0
        = min (g.count c) (w.count c) := by
    intro c
    unfold guess_to_colors
    rw [gtcAux_req]
    have hc1 : (g.zip (get_matches g w)).countP
          (fun q => decide (q.1 = c) && !decide (q.2 = '+'))
        = nonAbsentCount c g (get_matches g w) := by
      unfold nonAbsentCount
      exact List.countP_congr (fun x _ => by
        obtain ⟨u, v⟩ := x
        simp)
    rw [hc1, get_matches_count g w c hlen (fun ch hch => (hg' ch hch).1)]
    simp [List.lookup]
  have hnodup : (((guess_to_colors g (get_matches g w)).required_letters.map
      Prod.fst)).Nodup := by
    unfold guess_to_colors
    exact gtcAux_req_nodup _ 0 ⟨[], [], [], []⟩ (by simp)
  -- pointwise reading of the scorer at one position
  have hpoint : ∀ (pos : Nat) (c pc' : Char), g.get? pos = some c →
      (get_matches g w).get? pos = some pc' →
      ((pc' = c ↔ c = w.getD pos ' ') ∧ (pc' = c ∨ pc' = '-' ∨ pc' = '+')) := by
    intro pos c pc' hgk hpk
    obtain ⟨hb, -⟩ := List.get?_eq_some.mp hgk
    have h := get_matches_pointwise g w pos hlen hb hg'
    have e1 : (get_matches g w).getD pos ' ' = pc' := by
      rw [List.getD_eq_get?, hpk]
      rfl
    have e2 : g.getD pos ' ' = c := by
      rw [List.getD_eq_get?, hgk]
      rfl
    rw [e1, e2] at h
    exact h
  -- every gray letter of the decomposition has an Absent position
  have hgray : ∀ c ∈ (guess_to_colors g (get_matches g w)).gray,
      min (g.count c) (w.count c) = w.count c ∧ w.count c < g.count c := by
    intro c hc
    unfold guess_to_colors at hc
    rw [gtcAux_gray] at hc
    simp only [List.nil_append] at hc
    obtain ⟨q, hqf, hq1⟩ := List.mem_map.mp hc
    have hqm := List.mem_filter.mp hqf
    have hpos : 0 < (g.zip (get_matches g w)).countP
        (fun x => decide (x.1 = c) && decide (x.2 = '+')) := by
      refine List.countP_pos_iff.mpr ⟨q, hqm.1, ?_⟩
      have h2 := hqm.2
      simp only [decide_eq_true_eq] at h2
      simp [hq1, h2]
    have hsplit := countP_and_split (g.zip (get_matches g w))
        (fun x => decide (x.1 = c)) (fun x => decide (x.2 = '+'))
    simp only [] at hsplit
    have hle2 : g.length ≤ (get_matches g w).length := by
      rw [get_matches_length g w (le_of_eq hlen)]
    have htot : (g.zip (get_matches g w)).countP (fun x => decide (x.1 = c))
        = g.count c := by
      rw [countP_zip_fst (fun ch => decide (ch = c)) g _ hle2, count_decide_eq]
    have hc1 : (g.zip (get_matches g w)).countP
          (fun x => decide (x.1 = c) && !decide (x.2 = '+'))
        = nonAbsentCount c g (get_matches g w) := by
      unfold nonAbsentCount
      exact List.countP_congr (fun x _ => by
        obtain ⟨u, v⟩ := x
        simp)
    rw [htot, hc1, get_matches_count g w c hlen (fun ch hch => (hg' ch hch).1)]
      at hsplit
    omega
  simp only [isValidWord, Bool.and_eq_true, List.all_eq_true]
  refine ⟨⟨⟨?_, ?_⟩, ?_⟩, ?_⟩
  · -- required letters
    intro lc hl
    obtain ⟨c, n⟩ := lc
    have hlk := lookup_eq_of_mem _ hnodup c n hl
    have h2 := hreq c
    rw [hlk] at h2
    simp only [Option.getD_some] at h2
    simp only [decide_eq_true_eq]
    omega
  · -- green positions
    intro pq hq
    obtain ⟨pos, c⟩ := pq
    unfold guess_to_colors at hq
    rcases gtcAux_green _ 0 _ pos c hq with h' | ⟨k, pc', hk, hposk, h1, h2⟩
    · simp at h'
    · obtain ⟨hgk, hpk⟩ := get?_zip_inv _ _ _ _ _ hk
      have hpt := hpoint k c pc' hgk hpk
      rcases hpt.2 with hh | hh | hh
      · have hcw := hpt.1.mp hh
        have hpk2 : pos = k := by omega
        rw [hpk2]
        simp only [beq_iff_eq]
        exact hcw.symm
      · exact absurd hh h2
      · exact absurd hh h1
  · -- yellow positions
    intro lp hl
    obtain ⟨c, poss⟩ := lp
    simp only [List.all_eq_true]
    intro pos hpos
    unfold guess_to_colors at hl
    rcases gtcAux_yellow _ 0 _ c poss pos hl hpos with h' | ⟨k, hk, hposk⟩
    · obtain ⟨poss₀, h0, -⟩ := h'
      simp at h0
    · obtain ⟨hgk, hpk⟩ := get?_zip_inv _ _ _ _ _ hk
      have hpt := hpoint k c '-' hgk hpk
      have hcg : c ∈ g := List.get?_mem hgk
      have hcne : c ≠ '-' := (hg' c hcg).2
      simp only [Bool.not_eq_true', beq_eq_false_iff_ne]
      intro hw
      have hpk2 : pos = k := by omega
      rw [hpk2] at hw
      exact hcne ((hpt.1.mpr hw.symm).symm)
  · -- gray letters
    intro c hc
    obtain ⟨hmin, hlt⟩ := hgray c hc
    cases hs : (guess_to_colors g (get_matches g w)).required_letters.lookup c with
    | some n =>
      have h2 := hreq c
      rw [hs] at h2
      simp only [Option.getD_some] at h2
      simp only [hs, Option.isSome_some, if_true, Option.getD_some,
        decide_eq_true_eq]
      omega
    | none =>
      have h2 := hreq c
      rw [hs] at h2
      simp only [Option.getD_none] at h2
      have h0 : w.count c = 0 := by omega
      have hnm : c ∉ w := List.count_eq_zero.mp h0
      simp only [hs, Option.isSome_none, Bool.false_eq_true, if_false,
        Bool.not_eq_true']
      simpa using hnm

/-- C4 counterexample: the constraint-based filter is NOT equivalent to the
direct pattern-equality filter.  For the guess `aaabc` and the observed
pattern `-++b+` (realisable: the word `debba` produces it), the word
`daebd` satisfies every constraint of `filter_words` although its actual
pattern is `+a+b+`, because the gray position 1 carries no positional
constraint; so `filter_words` keeps both words while the exact filter
keeps only `debba`. -/
theorem c4_counterexample :
    filter_words ['a','a','a','b','c'] ['-','+','+','b','+']
        [['d','e','b','b','a'], ['d','a','e','b','d']]
      = [['d','e','b','b','a'], ['d','a','e','b','d']]
    ∧ get_pattern ['a','a','a','b','c'] ['d','a','e','b','d']
        ≠ ['-','+','+','b','+']
    ∧ get_pattern ['a','a','a','b','c'] ['d','e','b','b','a']
        = ['-','+','+','b','+']
    ∧ (([['d','e','b','b','a'], ['d','a','e','b','d']] : List Word).filter
          (fun v => get_pattern ['a','a','a','b','c'] v
            == ['-','+','+','b','+']))
        = [['d','e','b','b','a']] := by
  refine ⟨?_, ?_, ?_, ?_⟩ <;> decide

/-- C4 (amended): `filter_words` is a sound over-approximation of the
direct pattern filter: it retains every word of the space whose pattern
against the guess equals the observed pattern, and it only narrows the
space; but (see the counterexample) it may also retain words with a
different pattern, so it is not equivalent. -/
theorem c4_filter_superset (g p : Word) (S : List Word) (w : Word)
    (hglen : g.length = 5) (hwlen : w.length = 5)
    (hg : ∀ ch ∈ g, IsLowerCh ch)
    (hmem : w ∈ S) (hpat : get_pattern g w = p) :
    w ∈ filter_words g p S
    ∧ (filter_words g p S).length ≤ S.length
    ∧ (∀ v, v ∈ filter_words g p S → v ∈ S) := by
  refine ⟨?_, ?_, ?_⟩
  · rw [← hpat]
    exact filter_words_keeps_consistent g w S hglen hwlen hg hmem
  · simp only [filter_words]
    exact List.length_filter_le _ _
  · intro v hv
    simp only [filter_words] at hv
    exact (List.mem_filter.mp hv).1

theorem c4_filter_superset_witness :
    ['d','e','b','b','a'] ∈ filter_words ['a','a','a','b','c']
        ['-','+','+','b','+'] [['d','e','b','b','a'], ['d','a','e','b','d']]
    ∧ (filter_words ['a','a','a','b','c'] ['-','+','+','b','+']
        [['d','e','b','b','a'], ['d','a','e','b','d']]).length
      ≤ ([['d','e','b','b','a'], ['d','a','e','b','d']] : List Word).length
    ∧ (∀ v, v ∈ filter_words ['a','a','a','b','c'] ['-','+','+','b','+']
          [['d','e','b','b','a'], ['d','a','e','b','d']]
        → v ∈ [['d','e','b','b','a'], ['d','a','e','b','d']]) :=
  c4_filter_superset ['a','a','a','b','c'] ['-','+','+','b','+']
    [['d','e','b','b','a'], ['d','a','e','b','d']] ['d','e','b','b','a']
    rfl rfl (by decide) (by decide) (by decide)

/-- `distribution[pattern] = distribution.get(pattern, 0) + 1` on an
insertion-ordered dictionary. -/
def bump : List (Pattern × Nat) → Pattern → List (Pattern × Nat)
  | [], p => [(p, 1)]
  | (q, n) :: rest, p =>
    if q = p then (q, n + 1) :: rest else (q, n) :: bump rest p

/-- `Guesser.pattern_distribution(guess, candidates_tuple)` from
guesser_submitted.py (lines 52-59). -/
def pattern_distribution (guess : Word) (candidates : List Word) :
    List (Pattern × Nat) :=
  candidates.foldl (fun d a => bump d (get_matches guess a)) []

/-- `Guesser.entropy(guess, candidates)` from guesser_submitted.py
(lines 61-71), with the float arithmetic idealised over the reals
(`math.log2` becomes `Real.logb 2`). -/
noncomputable def entropy (guess : Word) (candidates : List Word) : ℝ :=
  let total : ℝ := (candidates.length : ℝ)
  ((pattern_distribution guess candidates).map Prod.snd).foldl
    (fun acc (count : Nat) =>
      acc - (((count : ℝ) / total) * Real.logb 2 ((count : ℝ) / total))) 0

/-- Python's `max(pool, key=f)` over a nonempty pool: scan left to right,
replacing the current best only on a strictly larger key, so the first
maximal element wins ties. -/
noncomputable def maxByKey (f : Word → ℝ) : Word → List Word → Word
  | best, [] => best
  | best, x :: rest =>
    if f x > f best then maxByKey f x rest else maxByKey f best rest

/-- The entropy selection `max(candidates_to_consider, key=lambda c:
entropy(c, candidates_tuple))` of `Guesser.get_guess`
(guesser_submitted.py, lines 133-134); `none` models the `ValueError`
Python's `max` raises on an empty pool. -/
noncomputable def selectBest (pool space : List Word) : Option Word :=
  match pool with
  | [] => none
  | w :: rest => some (maxByKey (fun c => entropy c space) w rest)

/-- `max(..., key=...)` returns the first element attaining the maximal
key: everything before it is strictly smaller, everything overall is no
larger. -/
theorem maxByKey_spec (f : Word → ℝ) :
    ∀ (l : List Word) (b : Word),
      ∃ l₁ l₂, b :: l = l₁ ++ maxByKey f b l :: l₂
        ∧ (∀ v ∈ l₁, f v < f (maxByKey f b l))
        ∧ (∀ v ∈ b :: l, f v ≤ f (maxByKey f b l)) := by
  intro l
  induction l with
  | nil =>
    intro b
    refine ⟨[], [], by simp [maxByKey], by simp, ?_⟩
    intro v hv
    rcases List.mem_cons.mp hv with rfl | hv'
    · simp [maxByKey]
    · simp at hv'
  | cons x rest ih =>
    intro b
    by_cases h : f x > f b
    · obtain ⟨l₁, l₂, he, h1, h2⟩ := ih x
      rw [show maxByKey f b (x :: rest) = maxByKey f x rest from by
        simp [maxByKey, h]]
      refine ⟨b :: l₁, l₂, ?_, ?_, ?_⟩
      · rw [List.cons_append, ← he]
      · intro v hv
        rcases List.mem_cons.mp hv with rfl | hv'
        · exact lt_of_lt_of_le h (h2 x (List.mem_cons_self _ _))
        · exact h1 v hv'
      · intro v hv
        rcases List.mem_cons.mp hv with rfl | hv'
        · exact le_of_lt (lt_of_lt_of_le h (h2 x (List.mem_cons_self _ _)))
        · exact h2 v hv'
    · obtain ⟨l₁, l₂, he, h1, h2⟩ := ih b
      rw [show maxByKey f b (x :: rest) = maxByKey f b rest from by
        simp [maxByKey, h]]
      cases l₁ with
      | nil =>
        rw [List.nil_append] at he
        injection he with e1 e2
        refine ⟨[], x :: l₂, ?_, by simp, ?_⟩
        · rw [List.nil_append, ← e1, ← e2]
        · intro v hv
          rcases List.mem_cons.mp hv with rfl | hv'
          · exact h2 v (List.mem_cons_self _ _)
          · rcases List.mem_cons.mp hv' with rfl | hv''
            · exact le_trans (not_lt.mp h) (h2 b (List.mem_cons_self _ _))
            · exact h2 v (List.mem_cons_of_mem _ hv'')
      | cons c l₁' =>
        rw [List.cons_append] at he
        injection he with e1 e2
        refine ⟨b :: x :: l₁', l₂, ?_, ?_, ?_⟩
        · rw [List.cons_append, List.cons_append, ← e2]
        · intro v hv
          rcases List.mem_cons.mp hv with rfl | hv'
          · have hc := h1 c (List.mem_cons_self _ _)
            rwa [← e1] at hc
          · rcases List.mem_cons.mp hv' with rfl | hv''
            · refine lt_of_le_of_lt (not_lt.mp h) ?_
              have hc := h1 c (List.mem_cons_self _ _)
              rwa [← e1] at hc
            · exact h1 v (List.mem_cons_of_mem _ hv'')
        · intro v hv
          rcases List.mem_cons.mp hv with rfl | hv'
          · exact h2 v (List.mem_cons_self _ _)
          · rcases List.mem_cons.mp hv' with rfl | hv''
            · exact le_trans (not_lt.mp h) (h2 b (List.mem_cons_self _ _))
            · exact h2 v (List.mem_cons_of_mem _ hv'')

theorem selectBest_mem (pool space : List Word) (h : pool ≠ []) :
    ∃ w, selectBest pool space = some w ∧ w ∈ pool := by
  cases pool with
  | nil => exact absurd rfl h
  | cons b rest =>
    obtain ⟨l₁, l₂, he, -, -⟩ := maxByKey_spec (fun c => entropy c space) rest b
    refine ⟨maxByKey (fun c => entropy c space) b rest, rfl, ?_⟩
    rw [he]
    exact List.mem_append.mpr (Or.inr (List.mem_cons_self _ _))

/-- The per-game state of `Guesser` in guesser_submitted.py; the console
and manual-mode plumbing is outside the core and omitted. -/
structure GuesserState where
  word_list : List Word
  tried : List Word
  candidates : List Word
  last_guess : Option Word
  best_first_word : Word
deriving DecidableEq

/-- `Guesser.get_guess(result)` from guesser_submitted.py (lines 108-139,
non-manual path) as a pure state transition returning the emitted guess
and the updated state.  `none` models the `ValueError` that Python's
`max` would raise on an empty pool. -/
noncomputable def get_guess (s : GuesserState) (result : Pattern) :
    Option (Word × GuesserState) :=
  let cands := match s.last_guess with
    | some lg => filterCandidates lg result s.candidates
    | none => s.candidates
  if s.tried = [] then
    let g := s.best_first_word
    some (g, { s with
                 candidates := cands,
                 tried := s.tried ++ [g],
                 last_guess := some g })
  else if cands.length = 1 then
    let g := cands.headD []
    some (g, { s with
                 candidates := cands,
                 tried := s.tried ++ [g],
                 last_guess := some g })
  else
    let cands2 := if cands = [] then
        s.word_list.filter (fun v => decide (v ∉ s.tried))
      else cands
    let consider := cands2.filter (fun v => decide (v ∉ s.tried))
    let consider2 := if consider = [] then cands2 else consider
    match selectBest consider2 cands2 with
    | none => none
    | some g =>
      some (g, { s with
                   candidates := cands2,
                   tried := s.tried ++ [g],
                   last_guess := some g })

/-- C6: the entropy selection is a pure function of the guess pool and the
reference space: two runs on identical inputs (same words, same order)
return the identical result. -/
theorem c6_selection_deterministic (pool₁ space₁ pool₂ space₂ : List Word)
    (h1 : pool₁ = pool₂) (h2 : space₁ = space₂) :
    selectBest pool₁ space₁ = selectBest pool₂ space₂ := by
  rw [h1, h2]

theorem c6_selection_deterministic_witness :
    selectBest [['c','r','a','n','e']] [['c','r','a','n','e']]
      = selectBest [['c','r','a','n','e']] [['c','r','a','n','e']] :=
  c6_selection_deterministic _ _ _ _ rfl rfl

/-- C5 (amended): the selection returns the first element of the pool (in
pool order) attaining the maximal entropy against the reference space —
not the lexicographically smallest tied word; in particular, whenever the
pool is drawn from the reference space (as at the call site in
`get_guess`, where the pool is a sublist of the candidate set), the
returned word is a member of the reference space. -/
theorem c5_first_max_selection (pool space : List Word) (h : pool ≠ []) :
    ∃ w l₁ l₂, selectBest pool space = some w
      ∧ pool = l₁ ++ w :: l₂
      ∧ (∀ v ∈ l₁, entropy v space < entropy w space)
      ∧ (∀ v ∈ pool, entropy v space ≤ entropy w space)
      ∧ w ∈ pool
      ∧ ((∀ v ∈ pool, v ∈ space) → w ∈ space) := by
  cases pool with
  | nil => exact absurd rfl h
  | cons b rest =>
    obtain ⟨l₁, l₂, he, h1, h2⟩ := maxByKey_spec (fun c => entropy c space) rest b
    have hw : maxByKey (fun c => entropy c space) b rest ∈ b :: rest := by
      rw [he]
      exact List.mem_append.mpr (Or.inr (List.mem_cons_self _ _))
    exact ⟨maxByKey (fun c => entropy c space) b rest, l₁, l₂, rfl, he, h1, h2,
      hw, fun hsub => hsub _ hw⟩

theorem c5_first_max_selection_witness :
    ∃ w l₁ l₂,
      selectBest [['c','r','a','n','e'], ['s','t','a','l','e']]
          [['c','r','a','n','e'], ['s','t','a','l','e']] = some w
      ∧ [['c','r','a','n','e'], ['s','t','a','l','e']] = l₁ ++ w :: l₂
      ∧ (∀ v ∈ l₁, entropy v [['c','r','a','n','e'], ['s','t','a','l','e']]
          < entropy w [['c','r','a','n','e'], ['s','t','a','l','e']])
      ∧ (∀ v ∈ [['c','r','a','n','e'], ['s','t','a','l','e']],
          entropy v [['c','r','a','n','e'], ['s','t','a','l','e']]
            ≤ entropy w [['c','r','a','n','e'], ['s','t','a','l','e']])
      ∧ w ∈ [['c','r','a','n','e'], ['s','t','a','l','e']]
      ∧ ((∀ v ∈ [['c','r','a','n','e'], ['s','t','a','l','e']],
            v ∈ [['c','r','a','n','e'], ['s','t','a','l','e']])
          → w ∈ [['c','r','a','n','e'], ['s','t','a','l','e']]) :=
  c5_first_max_selection [['c','r','a','n','e'], ['s','t','a','l','e']]
    [['c','r','a','n','e'], ['s','t','a','l','e']] (by decide)

/-- If a guess sends every candidate to one and the same pattern, its
entropy is zero. -/
theorem entropy_single_pattern (g : Word) (cands : List Word) (p : Pattern)
    (hd : pattern_distribution g cands = [(p, cands.length)])
    (hn : cands.length ≠ 0) :
    entropy g cands = 0 := by
  unfold entropy
  rw [hd]
  simp only [List.map_cons, List.map_nil, List.foldl_cons, List.foldl_nil]
  have hne : ((cands.length : ℝ)) ≠ 0 := Nat.cast_ne_zero.mpr hn
  rw [div_self hne]
  simp [Real.logb_one]

/-- C5 counterexample: on a tie the selection returns the first tied
element of the pool, not a member of the reference space in preference to
others, nor the lexicographically smallest tied word.  Both `bbbbb` and
`aaaaa` score entropy 0 against the space `{ccccc, ddddd}` (each produces
the single pattern `+++++`), neither is in the space, `aaaaa` is
lexicographically smaller, yet `max` returns `bbbbb`. -/
theorem c5_counterexample :
    selectBest [['b','b','b','b','b'], ['a','a','a','a','a']]
        [['c','c','c','c','c'], ['d','d','d','d','d']]
      = some ['b','b','b','b','b']
    ∧ entropy ['a','a','a','a','a']
        [['c','c','c','c','c'], ['d','d','d','d','d']]
      = entropy ['b','b','b','b','b']
        [['c','c','c','c','c'], ['d','d','d','d','d']]
    ∧ ['b','b','b','b','b'] ∉ [['c','c','c','c','c'], ['d','d','d','d','d']]
    ∧ ['a','a','a','a','a'] ∉ [['c','c','c','c','c'], ['d','d','d','d','d']]
    ∧ List.Lex (· < ·) (['a','a','a','a','a'] : Word) ['b','b','b','b','b']
    ∧ (['a','a','a','a','a'] : Word) ≠ ['b','b','b','b','b'] := by
  have hb : entropy ['b','b','b','b','b']
      [['c','c','c','c','c'], ['d','d','d','d','d']] = 0 := by
    refine entropy_single_pattern _ _ ['+','+','+','+','+'] ?_ (by decide)
    decide
  have ha : entropy ['a','a','a','a','a']
      [['c','c','c','c','c'], ['d','d','d','d','d']] = 0 := by
    refine entropy_single_pattern _ _ ['+','+','+','+','+'] ?_ (by decide)
    decide
  have hnlt : ¬(entropy ['a','a','a','a','a']
        [['c','c','c','c','c'], ['d','d','d','d','d']]
      > entropy ['b','b','b','b','b']
        [['c','c','c','c','c'], ['d','d','d','d','d']]) := by
    rw [ha, hb]
    exact lt_irrefl 0
  have hsel : selectBest [['b','b','b','b','b'], ['a','a','a','a','a']]
      [['c','c','c','c','c'], ['d','d','d','d','d']]
      = some ['b','b','b','b','b'] := by
    simp only [selectBest, maxByKey, if_neg hnlt]
  refine ⟨hsel, by rw [ha, hb], by decide, by decide, ?_, by decide⟩
  exact List.Lex.rel (by decide)

/-- C8: on a turn after the first, when filtering by the observed feedback
leaves exactly one candidate, `get_guess` returns that candidate directly
(the single-candidate branch precedes the entropy ranking, so no ranking
is evaluated). -/
theorem c8_single_candidate (s : GuesserState) (result : Pattern) (lg w : Word)
    (hlg : s.last_guess = some lg) (htried : s.tried ≠ [])
    (hone : filterCandidates lg result s.candidates = [w]) :
    get_guess s result
      = some (w, { s with
                   candidates := [w],
                   tried := s.tried ++ [w],
                   last_guess := some w }) := by
  simp only [get_guess, hlg, hone]
  rw [if_neg htried]
  rw [if_pos (by simp : ([w] : List Word).length = 1)]
  simp

theorem c8_single_candidate_witness :
    get_guess
        ⟨[['a','a','a','a','a'], ['b','b','b','b','b']],
         [['a','a','a','a','a']],
         [['a','a','a','a','a'], ['b','b','b','b','b']],
         some ['a','a','a','a','a'], ['a','a','a','a','a']⟩
        ['a','a','a','a','a']
      = some (['a','a','a','a','a'],
          ⟨[['a','a','a','a','a'], ['b','b','b','b','b']],
           [['a','a','a','a','a'], ['a','a','a','a','a']],
           [['a','a','a','a','a']],
           some ['a','a','a','a','a'], ['a','a','a','a','a']⟩) :=
  c8_single_candidate
    ⟨[['a','a','a','a','a'], ['b','b','b','b','b']],
     [['a','a','a','a','a']],
     [['a','a','a','a','a'], ['b','b','b','b','b']],
     some ['a','a','a','a','a'], ['a','a','a','a','a']⟩
    ['a','a','a','a','a'] ['a','a','a','a','a'] ['a','a','a','a','a']
    rfl (by decide) (by decide)

/-- C2 (amended): when filtering by the observed feedback empties the
candidate set on a turn after the first, `get_guess` silently resets the
candidate set to the not-yet-tried words of the full vocabulary and
continues normal play, returning an ordinary entropy-ranked guess from the
reset set.  No error condition is surfaced to the caller (the only failure
value, `none`, is not produced) and no logging occurs. -/
theorem c2_silent_reset (s : GuesserState) (result : Pattern) (lg : Word)
    (hlg : s.last_guess = some lg) (htried : s.tried ≠ [])
    (hempty : filterCandidates lg result s.candidates = [])
    (hreset : s.word_list.filter (fun v => decide (v ∉ s.tried)) ≠ []) :
    ∃ w s', get_guess s result = some (w, s')
      ∧ w ∈ s.word_list ∧ w ∉ s.tried
      ∧ s'.candidates = s.word_list.filter (fun v => decide (v ∉ s.tried)) := by
  have hconsider : (s.word_list.filter (fun v => decide (v ∉ s.tried))).filter
      (fun v => decide (v ∉ s.tried))
      = s.word_list.filter (fun v => decide (v ∉ s.tried)) := by
    rw [List.filter_filter]
    congr 1
    funext v
    rw [Bool.and_self]
  obtain ⟨w, hsel, hw⟩ := selectBest_mem
    (s.word_list.filter (fun v => decide (v ∉ s.tried)))
    (s.word_list.filter (fun v => decide (v ∉ s.tried))) hreset
  have hw2 := List.mem_filter.mp hw
  simp only [get_guess, hlg, hempty]
  rw [if_neg htried]
  rw [if_neg (by simp : ¬(([] : List Word).length = 1))]
  simp only [if_true]
  rw [hconsider, if_neg hreset, hsel]
  refine ⟨w, _, rfl, hw2.1, ?_, rfl⟩
  simpa using hw2.2

theorem c2_silent_reset_witness :
    ∃ w s', get_guess
        ⟨[['a','a','a','a','a'], ['b','b','b','b','b']],
         [['a','a','a','a','a']], [['a','a','a','a','a']],
         some ['a','a','a','a','a'], ['a','a','a','a','a']⟩
        ['+','+','+','+','+']
      = some (w, s')
      ∧ w ∈ [['a','a','a','a','a'], ['b','b','b','b','b']]
      ∧ w ∉ [['a','a','a','a','a']]
      ∧ s'.candidates
        = ([['a','a','a','a','a'], ['b','b','b','b','b']] : List Word).filter
            (fun v => decide (v ∉ [['a','a','a','a','a']])) :=
  c2_silent_reset
    ⟨[['a','a','a','a','a'], ['b','b','b','b','b']],
     [['a','a','a','a','a']], [['a','a','a','a','a']],
     some ['a','a','a','a','a'], ['a','a','a','a','a']⟩
    ['+','+','+','+','+'] ['a','a','a','a','a']
    rfl (by decide) (by decide) (by decide)

/-- C2 counterexample: a concrete game step in which filtering yields the
empty set, yet `get_guess` surfaces no error: it silently resets the
candidate set to the untried vocabulary words and returns the ordinary
guess `bbbbb`.  The engine's only error value (`none`) is not produced,
so the empty-filter condition is not distinguishable to the caller. -/
theorem c2_counterexample :
    filterCandidates ['a','a','a','a','a'] ['+','+','+','+','+']
        [['a','a','a','a','a']] = []
    ∧ get_guess
        ⟨[['a','a','a','a','a'], ['b','b','b','b','b']],
         [['a','a','a','a','a']], [['a','a','a','a','a']],
         some ['a','a','a','a','a'], ['a','a','a','a','a']⟩
        ['+','+','+','+','+']
      = some (['b','b','b','b','b'],
          ⟨[['a','a','a','a','a'], ['b','b','b','b','b']],
           [['a','a','a','a','a'], ['b','b','b','b','b']],
           [['b','b','b','b','b']],
           some ['b','b','b','b','b'], ['a','a','a','a','a']⟩) := by
  constructor
  · decide
  · rfl

/-- Module toggle `DUMMY_GUESS_TOGGLE` of guesser_general.py. -/
def DUMMY_GUESS_TOGGLE : Bool := true

/-- Module constant `DUMMY_PLUS_COUNTS` of guesser_general.py. -/
def DUMMY_PLUS_COUNTS : List Nat := [1, 2]

/-- Module toggle `DUMMY_GUESS_ONE_PER_CASE` of guesser_general.py. -/
def DUMMY_GUESS_ONE_PER_CASE : Bool := true

/-- The distinct elements of a list in first-occurrence order — the key
set of a Python `Counter`/`set` built by one left-to-right scan. -/
def firstKeys (l : List Char) : List Char :=
  l.foldl (fun acc c => if c ∈ acc then acc else acc ++ [c]) []

/-- `Counter(letters).most_common()`: the (letter, count) items sorted by
count, largest first (Python's `sorted(..., reverse=True)` is a stable
descending sort). -/
def mostCommon (l : List Char) : List (Char × Nat) :=
  ((firstKeys l).map (fun c => (c, l.count c))).mergeSort
    (fun a b => decide (b.2 ≤ a.2))

/-- `Guesser.try_dummy_guess(candidates_to_consider, result)` from
guesser_general.py (lines 129-151).  The `self.used_dummy.add(result)`
mutation only affects later turns and is not part of the returned value;
the indexing `word[pos]` is total in the source only for 5-letter words,
so out-of-range reads are mapped to a default (never reached under the
length hypotheses of the theorems below). -/
def try_dummy_guess (candidates : List Word) (result : Pattern)
    (tried : List Word) (used_dummy : List Pattern) : Option Word :=
  if !DUMMY_GUESS_TOGGLE then none
  else
    let plus_count := result.count '+'
    if plus_count ∈ DUMMY_PLUS_COUNTS ∧ result.count '-' = 0
        ∧ tried.length < 5 then
      if DUMMY_GUESS_ONE_PER_CASE = true ∧ result ∈ used_dummy then none
      else
        let pos := result.indexOf '+'
        let letters := candidates.map (fun w => w.getD pos 'a')
        if (firstKeys letters).length < 3 then none
        else
          let dummy := (mostCommon letters).map Prod.fst
          let dummy2 :=
            if dummy.length < 5 then
              dummy ++ List.replicate (5 - dummy.length) 'a'
            else if 5 < dummy.length then dummy.take 5
            else dummy
          some dummy2
    else none

theorem firstKeys_subset (l : List Char) (x : Char) (h : x ∈ firstKeys l) :
    x ∈ l := by
  unfold firstKeys at h
  suffices hgen : ∀ (l : List Char) (acc : List Char),
      x ∈ l.foldl (fun acc c => if c ∈ acc then acc else acc ++ [c]) acc →
      x ∈ acc ∨ x ∈ l by
    rcases hgen l [] h with h' | h'
    · simp at h'
    · exact h'
  intro l'
  induction l' with
  | nil =>
    intro acc hx
    left
    simpa using hx
  | cons c rest ih =>
    intro acc hx
    simp only [List.foldl_cons] at hx
    rcases ih _ hx with h' | h'
    · by_cases hc : c ∈ acc
      · rw [if_pos hc] at h'
        left
        exact h'
      · rw [if_neg hc] at h'
        rcases List.mem_append.mp h' with h'' | h''
        · left
          exact h''
        · right
          simp at h''
          simp [h'']
    · right
      exact List.mem_cons_of_mem _ h'

theorem mostCommon_fst_subset (l : List Char) (x : Char)
    (h : x ∈ (mostCommon l).map Prod.fst) : x ∈ l := by
  obtain ⟨pr, hpr, rfl⟩ := List.mem_map.mp h
  have hpr2 := List.mem_mergeSort.mp hpr
  obtain ⟨c, hcf, heq⟩ := List.mem_map.mp hpr2
  rw [← heq]
  exact firstKeys_subset l c hcf

/-- C10: `try_dummy_guess` returns `None` or a string of exactly five
lowercase letters, synthesised from the letters the candidates carry at
the first `'+'` position of the feedback (padded with `'a'` or truncated
to length 5); nothing ties the result to the vocabulary, so the engine
can emit a non-vocabulary guess. -/
theorem c10_dummy_guess_shape (candidates : List Word) (result : Pattern)
    (tried : List Word) (used_dummy : List Pattern)
    (hres : result.length = 5)
    (hc : ∀ w ∈ candidates, w.length = 5 ∧ ∀ ch ∈ w, IsLowerCh ch) :
    try_dummy_guess candidates result tried used_dummy = none
    ∨ ∃ s, try_dummy_guess candidates result tried used_dummy = some s
        ∧ s.length = 5
        ∧ (∀ ch ∈ s, IsLowerCh ch)
        ∧ (∀ ch ∈ s, ch = 'a'
            ∨ ch ∈ candidates.map (fun w => w.getD (result.indexOf '+') 'a')) := by
  cases htd : try_dummy_guess candidates result tried used_dummy with
  | none => exact Or.inl rfl
  | some s =>
    right
    refine ⟨s, rfl, ?_⟩
    set pos := result.indexOf '+' with hpos
    set letters := candidates.map (fun w => w.getD pos 'a') with hletters
    have hlow : ∀ x ∈ letters, IsLowerCh x := by
      intro x hx
      rw [hletters] at hx
      obtain ⟨w, hw, rfl⟩ := List.mem_map.mp hx
      by_cases hp : pos < w.length
      · have he : w.getD pos 'a' = w.get ⟨pos, hp⟩ := by
          rw [List.getD_eq_get?, List.get?_eq_get hp]
          rfl
        rw [he]
        exact (hc w hw).2 _ (List.get_mem w pos hp)
      · have he : w.getD pos 'a' = 'a' := by
          rw [List.getD_eq_get?, List.get?_eq_none.mpr (by omega)]
          rfl
        rw [he]
        decide
    simp only [try_dummy_guess, DUMMY_GUESS_TOGGLE, DUMMY_GUESS_ONE_PER_CASE,
      Bool.not_true, Bool.false_eq_true, if_false, true_and] at htd
    by_cases h1 : result.count '+' ∈ DUMMY_PLUS_COUNTS ∧ result.count '-' = 0
        ∧ tried.length < 5
    · rw [if_pos h1] at htd
      by_cases h2 : result ∈ used_dummy
      · rw [if_pos h2] at htd
        exact absurd htd (by simp)
      · rw [if_neg h2] at htd
        by_cases h3 : (firstKeys letters).length < 3
        · rw [if_pos h3] at htd
          exact absurd htd (by simp)
        · rw [if_neg h3] at htd
          have hs : ((mostCommon letters).map Prod.fst).length < 5 ∧
                s = (mostCommon letters).map Prod.fst
                  ++ List.replicate (5 - ((mostCommon letters).map Prod.fst).length) 'a'
              ∨ ¬((mostCommon letters).map Prod.fst).length < 5
                ∧ 5 < ((mostCommon letters).map Prod.fst).length
                ∧ s = ((mostCommon letters).map Prod.fst).take 5
              ∨ ¬((mostCommon letters).map Prod.fst).length < 5
                ∧ ¬5 < ((mostCommon letters).map Prod.fst).length
                ∧ s = (mostCommon letters).map Prod.fst := by
            by_cases hl1 : ((mostCommon letters).map Prod.fst).length < 5
            · rw [if_pos hl1] at htd
              exact Or.inl ⟨hl1, (Option.some.inj htd).symm⟩
            · rw [if_neg hl1] at htd
              by_cases hl2 : 5 < ((mostCommon letters).map Prod.fst).length
              · rw [if_pos hl2] at htd
                exact Or.inr (Or.inl ⟨hl1, hl2, (Option.some.inj htd).symm⟩)
              · rw [if_neg hl2] at htd
                exact Or.inr (Or.inr ⟨hl1, hl2, (Option.some.inj htd).symm⟩)
          have hmemd : ∀ ch ∈ s, ch = 'a' ∨ ch ∈ letters := by
            intro ch hch
            rcases hs with ⟨-, he⟩ | ⟨-, -, he⟩ | ⟨-, -, he⟩
            · rw [he] at hch
              rcases List.mem_append.mp hch with h' | h'
              · exact Or.inr (mostCommon_fst_subset letters ch h')
              · exact Or.inl (List.eq_of_mem_replicate h')
            · rw [he] at hch
              exact Or.inr (mostCommon_fst_subset letters ch
                (List.take_subset _ _ hch))
            · rw [he] at hch
              exact Or.inr (mostCommon_fst_subset letters ch hch)
          refine ⟨?_, ?_, ?_⟩
          · rcases hs with ⟨hl, he⟩ | ⟨hl1, hl2, he⟩ | ⟨hl1, hl2, he⟩
            · rw [he]
              simp only [List.length_append, List.length_replicate]
              omega
            · rw [he]
              simp only [List.length_take]
              omega
            · rw [he]
              omega
          · intro ch hch
            rcases hmemd ch hch with h' | h'
            · rw [h']
              decide
            · exact hlow ch h'
          · intro ch hch
            rcases hmemd ch hch with h' | h'
            · exact Or.inl h'
            · exact Or.inr (hletters ▸ h')
    · rw [if_neg h1] at htd
      exact absurd htd (by simp)

theorem c10_dummy_guess_shape_witness :
    try_dummy_guess
        [['b','c','d','e','a'], ['c','d','e','a','b'], ['d','e','a','b','c']]
        ['+','b','c','d','e'] [] [] = none
    ∨ ∃ s, try_dummy_guess
          [['b','c','d','e','a'], ['c','d','e','a','b'], ['d','e','a','b','c']]
          ['+','b','c','d','e'] [] [] = some s
        ∧ s.length = 5
        ∧ (∀ ch ∈ s, IsLowerCh ch)
        ∧ (∀ ch ∈ s, ch = 'a'
            ∨ ch ∈ ([['b','c','d','e','a'], ['c','d','e','a','b'],
                ['d','e','a','b','c']] : List Word).map
                  (fun w => w.getD ((['+','b','c','d','e'] : Pattern).indexOf '+') 'a')) :=
  c10_dummy_guess_shape
    [['b','c','d','e','a'], ['c','d','e','a','b'], ['d','e','a','b','c']]
    ['+','b','c','d','e'] [] [] rfl (by decide)
